import Mathlib

/-!
Verification of the triangle-dominion game core.

`Arena` embeds the main game page (`src/unnamed/part_005`, the "Triangle
Arena" screen): board graph, segment-crossing geometry, edge set, triangle
index and claim resolution, dice with the feasibility cap, turn engine and
the AI move loop.  Float coordinates are embedded as rationals, the
tolerance constant `1e-9` as the exact rational `1/10^9`; `Math.random()`
draws are embedded as explicit argument streams (a `Nat` stream index `r`
selects element `r % len`, which ranges over exactly the indices
`Math.floor(Math.random()*len)` can produce).

`Engine` embeds the MVP engine (`src/app/game/engine.ts`, `boards.ts`,
`types.ts`).  Its string ids are embedded injectively: a dot id `"D_x_y"`
as the pair `(x, y)`, an edge id `"E_p__q"` as the ordered pair `(p, q)`,
a triangle id `"T_n"` as `n`.  Since the generated coordinates are single
digits, JavaScript lexicographic string comparison of two dot ids agrees
with lexicographic comparison of the pairs, so the encoding also preserves
the `a < b` canonicalization used by `edgeId`.
-/

namespace Arena

/-- A 2D point; models the float coordinates of the board dots. -/
structure Pt where
  x : ℚ
  y : ℚ
deriving DecidableEq, Repr

/-- The tolerance constant `1e-9` used by `onSegment` and `segmentsCross`. -/
def eps : ℚ := 1 / 1000000000

/-- `orient(a, b, c)` from the source: the cross product sign predicate
`(b.x - a.x) * (c.y - a.y) - (b.y - a.y) * (c.x - a.x)`. -/
def orient (a b c : Pt) : ℚ :=
  (b.x - a.x) * (c.y - a.y) - (b.y - a.y) * (c.x - a.x)

/-- `onSegment(a, b, p)` from the source: bounding-box containment of `p`
in the box of `a, b`, with `1e-9` slack on every side. -/
def onSegment (a b p : Pt) : Bool :=
  decide (min a.x b.x ≤ p.x + eps) && decide (p.x ≤ max a.x b.x + eps) &&
  decide (min a.y b.y ≤ p.y + eps) && decide (p.y ≤ max a.y b.y + eps)

/-- The early bounding-box rejection test at the top of `segmentsCross`. -/
def bboxMiss (a b c d : Pt) : Bool :=
  decide (max a.x b.x < min c.x d.x) || decide (max c.x d.x < min a.x b.x) ||
  decide (max a.y b.y < min c.y d.y) || decide (max c.y d.y < min a.y b.y)

/-- The strict straddling test of `segmentsCross`:
`(o1 > 0) !== (o2 > 0) && (o3 > 0) !== (o4 > 0)`. -/
def properCross (a b c d : Pt) : Bool :=
  (decide (0 < orient a b c) != decide (0 < orient a b d)) &&
  (decide (0 < orient c d a) != decide (0 < orient c d b))

/-- The four collinear-touch fallback tests of `segmentsCross`. -/
def collinearTouch (a b c d : Pt) : Bool :=
  (decide (|orient a b c| < eps) && onSegment a b c) ||
  (decide (|orient a b d| < eps) && onSegment a b d) ||
  (decide (|orient c d a| < eps) && onSegment c d a) ||
  (decide (|orient c d b| < eps) && onSegment c d b)

/-- `segmentsCross(a, b, c, d)` from the source: bounding boxes must meet,
then either strict straddling or a collinear touch within tolerance. -/
def segmentsCross (a b c d : Pt) : Bool :=
  if bboxMiss a b c d then false
  else if properCross a b c d then true
  else collinearTouch a b c d

structure Dot where
  id : ℕ
  x : ℚ
  y : ℚ
  neighbors : List ℕ
deriving DecidableEq, Repr

/-- The board value produced by a preset builder: dots plus extent. -/
structure Board where
  dots : List Dot
  width : ℚ
  height : ℚ
deriving DecidableEq, Repr

/-- An edge key `"min_max"`; embedded as the pair `(min, max)`, which the
decimal string determines uniquely. -/
abbrev EdgeKey := ℕ × ℕ

/-- `makeEdgeKey` from the source. -/
def makeEdgeKey (a b : ℕ) : EdgeKey := (min a b, max a b)

/-- A drawn edge.  The wall-clock `t` field (used only to animate) is
omitted. -/
structure Edge where
  a : ℕ
  b : ℕ
  key : EdgeKey
  owner : ℕ
deriving DecidableEq, Repr

/-- A precomputed triangle; `id` is the sorted triple of dot ids, `edges`
the list `[key a b, key b c, key a c]`.  The `claimedAt` animation
timestamp is omitted. -/
structure Triangle where
  a : ℕ
  b : ℕ
  c : ℕ
  edges : List EdgeKey
  owner : Option ℕ
deriving DecidableEq, Repr

/-- A player; the display name and color are omitted. -/
structure Player where
  id : ℕ
  score : ℕ
  isAI : Bool
deriving DecidableEq, Repr

inductive Phase where
  | setup
  | playing
  | gameover
deriving DecidableEq, Repr

/-- The reactive state of the Arena page relevant to the game logic:
board, phase, players, current player index, dice (`rolled`), remaining
budget (`linesLeft`, an integer clamped at zero by the source), the drawn
edges with their key set, the precomputed triangles, and the selected
dot. -/
structure St where
  board : Board
  phase : Phase
  players : List Player
  cur : ℕ
  rolled : Option ℕ
  linesLeft : ℤ
  edges : List Edge
  edgeSet : Finset EdgeKey
  triangles : List Triangle
  selected : Option ℕ
deriving DecidableEq

/-- `dotsById.get`: the source builds a `Map` keyed by dot id; boards have
unique ids, so first-match lookup agrees with it. -/
def findDot (bd : Board) (i : ℕ) : Option Dot :=
  bd.dots.find? (fun d => d.id == i)

/-- Position lookup `dotsById.get(id)!`; a missing dot would throw in the
source, the embedding totalizes it with the origin. -/
def dotPt (bd : Board) (i : ℕ) : Pt :=
  match findDot bd i with
  | some d => ⟨d.x, d.y⟩
  | none => ⟨0, 0⟩

/-- `currentPlayer` (the players entry at the current index; totalized). -/
def currentPlayer (s : St) : Player :=
  s.players.getD s.cur ⟨0, 0, false⟩

/-- `hasEdge(a, b)` from the source. -/
def hasEdge (s : St) (a b : ℕ) : Bool := makeEdgeKey a b ∈ s.edgeSet

/-- `edgeExists(key)` from the source. -/
def edgeExists (s : St) (k : EdgeKey) : Bool := k ∈ s.edgeSet

/-- `addEdge(a, b)`: no-op when the key is present, otherwise insert the
key and push the edge record (endpoints stored as `min`/`max`, owner the
current player). -/
def addEdge (s : St) (a b : ℕ) : St :=
  let k := makeEdgeKey a b
  if k ∈ s.edgeSet then s
  else { s with
    edgeSet := insert k s.edgeSet,
    edges := s.edges ++ [⟨min a b, max a b, k, (currentPlayer s).id⟩] }

/-- `removeEdgeKey(key)`: no-op when absent, otherwise delete the key and
filter the edge list. -/
def removeEdgeKey (s : St) (k : EdgeKey) : St :=
  if k ∈ s.edgeSet then
    { s with
      edgeSet := s.edgeSet.erase k,
      edges := s.edges.filter (fun e => e.key ≠ k) }
  else s

/-- The skip test inside `wouldCrossExistingEdge`: the stored edge shares
an endpoint with the candidate `(aId, bId)`. -/
def sharesEndpoint (e : Edge) (aId bId : ℕ) : Bool :=
  e.a == aId || e.b == aId || e.a == bId || e.b == bId

/-- `wouldCrossExistingEdge(aId, bId)`: the candidate segment crosses some
drawn edge that shares no endpoint with it. -/
def wouldCrossExistingEdge (s : St) (aId bId : ℕ) : Bool :=
  s.edges.any (fun e =>
    if sharesEndpoint e aId bId then false
    else segmentsCross (dotPt s.board aId) (dotPt s.board bId)
      (dotPt s.board e.a) (dotPt s.board e.b))

/-- A candidate move, as enumerated by `allPotentialNeighborEdges`. -/
structure Move where
  a : ℕ
  b : ℕ
  key : EdgeKey
deriving DecidableEq, Repr

/-- `allPotentialNeighborEdges()`: every neighbor pair once, via
`d.id < n`. -/
def allPotentialNeighborEdges (bd : Board) : List Move :=
  bd.dots.flatMap (fun d =>
    (d.neighbors.filter (fun n => d.id < n)).map
      (fun n => ⟨d.id, n, makeEdgeKey d.id n⟩))

/-- `isLegalMove(a, b)` from the source: not already drawn, `b` listed
among `a`'s neighbors, and no crossing. -/
def isLegalMove (s : St) (a b : ℕ) : Bool :=
  if hasEdge s a b then false
  else
    match findDot s.board a with
    | none => false
    | some da =>
      if da.neighbors.contains b then !(wouldCrossExistingEdge s a b) else false

/-- `legalMovesList()` from the source. -/
def legalMovesList (s : St) : List Move :=
  (allPotentialNeighborEdges s.board).filter (fun m => isLegalMove s m.a m.b)

/-- `remainingLegalMovesCount`. -/
def remainingLegalMovesCount (s : St) : ℕ := (legalMovesList s).length

/-- `hasAnyLegalMove()`. -/
def hasAnyLegalMove (s : St) : Bool := decide (0 < remainingLegalMovesCount s)

/-- The sorted triple used as a triangle id (`triId` in the source sorts
the three ids ascending; for numbers this is `(min, middle, max)`). -/
def triId (a b c : ℕ) : ℕ × ℕ × ℕ :=
  (min a (min b c), a + b + c - min a (min b c) - max a (max b c), max a (max b c))

/-- The index pairs `(neigh[i], neigh[j])` with `i < j`, in the loop order
of `buildTriangles`. -/
def orderedPairs : List ℕ → List (ℕ × ℕ)
  | [] => []
  | x :: xs => xs.map (fun y => (x, y)) ++ orderedPairs xs

/-- The candidate triangles registered by `buildTriangles` before id
deduplication: for each dot `a` and each index-ordered pair of its
neighbors `(b, c)`, if `c` is also a neighbor of `b`, register
`{a, b, c}`. -/
def candTriangles (bd : Board) : List Triangle :=
  bd.dots.flatMap (fun aDot =>
    (orderedPairs aDot.neighbors).filterMap (fun bc =>
      match findDot bd bc.1 with
      | none => none
      | some bDot =>
        if bDot.neighbors.contains bc.2 then
          some ⟨aDot.id, bc.1, bc.2,
            [makeEdgeKey aDot.id bc.1, makeEdgeKey bc.1 bc.2, makeEdgeKey aDot.id bc.2], none⟩
        else none))

/-- The `triMap` deduplication of `buildTriangles`: keep the first
triangle registered for each sorted-triple id. -/
def dedupTriangles (ts : List Triangle) : List Triangle :=
  ts.foldl (fun acc t =>
    if acc.any (fun u => triId u.a u.b u.c = triId t.a t.b t.c) then acc else acc ++ [t]) []

/-- `buildTriangles()` from the source (the resulting list; the
edge-to-triangle inverse index it also builds is recovered by
`trianglesWithEdge`). -/
def buildTriangles (bd : Board) : List Triangle :=
  dedupTriangles (candTriangles bd)

/-- The inverse-index lookup `triByEdge.get(key)`: `buildTriangles` pushes
every triangle onto the bucket of each of its three edges in list order,
so the bucket of `key` is exactly the sublist of triangles containing
`key`. -/
def trianglesWithEdge (ts : List Triangle) (k : EdgeKey) : List Triangle :=
  ts.filter (fun t => t.edges.contains k)

/-- The claiming condition of `claimTrianglesForEdge` for one candidate
triangle: not yet owned and all three edges present. -/
def triClaimable (s : St) (t : Triangle) : Bool :=
  t.owner == none && t.edges.all (fun ek => edgeExists s ek)

/-- `claimTrianglesForEdge(edgeKey)`: walk the candidate triangles of the
key, assign the current player to each claimable one, and add one point
per claimed triangle to the current player's score. -/
def claimTrianglesForEdge (s : St) (k : EdgeKey) : St :=
  let pid := (currentPlayer s).id
  let claimed := ((trianglesWithEdge s.triangles k).filter (fun t => triClaimable s t)).length
  { s with
    triangles := s.triangles.map (fun t =>
      if t.edges.contains k && triClaimable s t then { t with owner := some pid } else t),
    players := s.players.set s.cur
      { currentPlayer s with score := (currentPlayer s).score + claimed } }

/-- `endGameIfNoMoves()`: when no legal move is left, enter the gameover
phase and clear dice, budget and selection. -/
def endGameIfNoMoves (s : St) : St :=
  if hasAnyLegalMove s then s
  else { s with phase := .gameover, rolled := none, linesLeft := 0, selected := none }

/-- The synchronous part of `endTurn()`: clear dice, budget and selection,
fire the game-over check, and otherwise advance the current player index
modulo the player count.  (The source then schedules the next AI roll;
that roll is a separate transition, `rollDice`.) -/
def endTurnCore (s : St) : St :=
  let s1 : St := { s with rolled := none, linesLeft := 0, selected := none }
  let s2 := endGameIfNoMoves s1
  if s2.phase = .gameover then s2
  else { s2 with cur := (s2.cur + 1) % s2.players.length }

/-- The neighbor test `da?.neighbors.includes(b)` of `onDotClick`. -/
def neighborOk (s : St) (a b : ℕ) : Bool :=
  match findDot s.board a with
  | none => false
  | some da => da.neighbors.contains b

/-- `onDotClick(id)` (audio and toast messages omitted): selection
handling, the three legality checks, then draw the edge, decrement the
budget, resolve triangle claims, and run the game-over / end-of-turn
checks.  The `if (!ok) return` branch after `addEdge` cannot fire because
the key was just checked absent. -/
def onDotClick (s : St) (id : ℕ) : St :=
  if s.phase ≠ .playing then s
  else if (currentPlayer s).isAI then s
  else if ¬ (hasAnyLegalMove s = true) then endGameIfNoMoves s
  else if s.rolled = none ∨ s.linesLeft ≤ 0 then
    { s with selected := if s.selected = some id then none else some id }
  else
    match s.selected with
    | none => { s with selected := some id }
    | some a =>
      if a = id then { s with selected := none }
      else if ¬ (neighborOk s a id = true) then { s with selected := some id }
      else if hasEdge s a id then { s with selected := some id }
      else if wouldCrossExistingEdge s a id then { s with selected := some id }
      else
        let s1 := addEdge s a id
        let s2 : St := { s1 with linesLeft := max 0 (s1.linesLeft - 1) }
        let s3 := claimTrianglesForEdge s2 (makeEdgeKey a id)
        let s4 : St := { s3 with selected := some id }
        if ¬ (hasAnyLegalMove s4 = true) then endGameIfNoMoves s4
        else if s4.linesLeft = 0 then endTurnCore s4
        else s4

/-- The uniform pick `arr[Math.floor(Math.random()*arr.length)]`; the
random draw is an explicit `Nat` reduced modulo the length. -/
def pickIdx (len r : ℕ) : ℕ := r % len

/-- The result of one randomized trial of the feasibility estimator. -/
structure TrialRes where
  st : St
  best : ℕ
  added : List EdgeKey
  rest : List ℕ
deriving DecidableEq

/-- The inner `for step in 0..depthCap` loop of one estimator trial: draw
a uniformly chosen legal edge, record its key, bump `best` with the run
length so far, and stop early once `best` reaches `depthCap`. -/
def trialLoop (s : St) (depthCap best count : ℕ) (added : List EdgeKey)
    (r : List ℕ) : ℕ → TrialRes
  | 0 => ⟨s, best, added, r⟩
  | fuel + 1 =>
    let legal := legalMovesList s
    if legal.length = 0 then ⟨s, best, added, r⟩
    else
      let m := legal.getD (pickIdx legal.length (r.headD 0)) ⟨0, 0, (0, 0)⟩
      let s1 := addEdge s m.a m.b
      let added1 := added ++ [m.key]
      let count1 := count + 1
      let best1 := max best count1
      if depthCap ≤ best1 then ⟨s1, best1, added1, r.tail⟩
      else trialLoop s1 depthCap best1 count1 added1 r.tail fuel

/-- The undo loop after a trial: remove the speculative keys, last first. -/
def undoAll (s : St) (added : List EdgeKey) : St :=
  added.foldr (fun k t => removeEdgeKey t k) s

/-- The cumulative effect of a sequence of draws. -/
def addMoves (s : St) (ms : List Move) : St :=
  ms.foldl (fun t m => addEdge t m.a m.b) s

/-- The outer `for t in 0..tries` loop of the estimator. -/
def triesLoop (s : St) (depthCap : ℕ) (best : ℕ) (r : List ℕ) : ℕ → ℕ × St
  | 0 => (best, s)
  | t + 1 =>
    let res := trialLoop s depthCap best 0 [] r depthCap
    triesLoop (undoAll res.st res.added) depthCap res.best res.rest t

/-- `estimateMaxDrawableThisTurn(maxDepth, tries)`: repeated randomized
greedy trials over the shared edge state, each undone afterwards; returns
the longest observed run (`0` when no move is legal at all, else at least
`1`) together with the post-call state. -/
def estimateMaxDrawableThisTurn (s : St) (maxDepth tries : ℕ) (r : List ℕ) : ℕ × St :=
  let baseLegal := legalMovesList s
  if baseLegal.length = 0 then (0, s)
  else triesLoop s (min maxDepth baseLegal.length) 1 r tries

/-- `rollDice()` (audio and the dice animation omitted; the animation only
flickers `rolled` before settling on the final value): guard the phase and
an unfinished budget, fire the game-over check when nothing is legal, cap
the roll by the feasibility estimate, and grant the budget.  `rs` feeds
the estimator's random picks, `rd` the final uniform roll. -/
def rollDice (s : St) (rs : List ℕ) (rd : ℕ) : St :=
  if s.phase ≠ .playing then s
  else if s.rolled ≠ none ∧ 0 < s.linesLeft then s
  else if remainingLegalMovesCount s ≤ 0 then endGameIfNoMoves s
  else
    let fe := estimateMaxDrawableThisTurn s 6 90 rs
    let cap := min 6 fe.1
    if cap ≤ 0 then endGameIfNoMoves { fe.2 with rolled := some 1 }
    else
      let n := pickIdx cap rd + 1
      { fe.2 with rolled := some n, linesLeft := (n : ℤ), selected := none }

/-- `moveByKey.get(key)`: first enumerated move with the given key. -/
def moveByKey (bd : Board) (k : EdgeKey) : Option Move :=
  (allPotentialNeighborEdges bd).find? (fun m => m.key == k)

/-- `triStatsIfAddEdge(edgeKey)`: among the unowned triangles containing
the key, pretending the key is drawn, count the completed ones
(`immediate`), the one-edge-short ones (`setup`), and among those the ones
whose missing edge is presently a legal move (`danger`). -/
def triStatsIfAddEdge (s : St) (k : EdgeKey) : ℕ × ℕ × ℕ :=
  (trianglesWithEdge s.triangles k).foldl
    (fun acc t =>
      if t.owner ≠ none then acc
      else
        let missing := t.edges.filter (fun ek => ¬ (ek = k ∨ edgeExists s ek = true))
        if missing.length = 0 then (acc.1 + 1, acc.2.1, acc.2.2)
        else if missing.length = 1 then
          match moveByKey s.board (missing.headD (0, 0)) with
          | some mv =>
            if isLegalMove s mv.a mv.b then (acc.1, acc.2.1 + 1, acc.2.2 + 1)
            else (acc.1, acc.2.1 + 1, acc.2.2)
          | none => (acc.1, acc.2.1 + 1, acc.2.2)
        else acc)
    (0, 0, 0)

/-- `opponentBestImmediateAfter(edgeKey)`: the best immediate triangle
count the opponent could score with one legal reply, pretending the key is
drawn. -/
def opponentBestImmediateAfter (s : St) (k : EdgeKey) : ℕ :=
  (legalMovesList s).foldl
    (fun best mv =>
      if mv.key = k then best
      else
        max best (((trianglesWithEdge s.triangles mv.key).filter (fun t =>
          t.owner == none &&
            t.edges.all (fun ek => ek == mv.key || ek == k || edgeExists s ek))).length))
    0

/-- The score of one candidate move in `pickAIMoveWise`.  The positional
term `edgeCenterBonus` involves a square root of a float, and the random
jitter a `Math.random()*0.18` draw; both enter only additively, so they
are parameters (`center` and `jitter`) here. -/
def aiScore (s : St) (linesRemaining : ℤ) (center jitter : ℚ) (m : Move) : ℚ :=
  let stats := triStatsIfAddEdge s m.key
  let afterLines := linesRemaining - 1
  let setupWeight : ℚ := if 0 < afterLines then 700 else 60
  let dangerWeight : ℚ := if 0 < afterLines then 135 else 680
  let oppWeight : ℚ := if 0 < afterLines then 190 else 720
  (stats.1 : ℚ) * 5200 + (stats.2.1 : ℚ) * setupWeight - (stats.2.2 : ℚ) * dangerWeight -
    (opponentBestImmediateAfter s m.key : ℚ) * oppWeight + center * 26 + jitter

/-- The best-so-far accumulator of `pickAIMoveWise`: `none` models the
`-Infinity` initial score; scores within `1e-9` of the maximum tie. -/
def pickStep (score : Move → ℚ) (acc : Option ℚ × List Move) (m : Move) :
    Option ℚ × List Move :=
  let sc := score m
  match acc.1 with
  | none => (some sc, [m])
  | some bs =>
    if bs + eps < sc then (some sc, [m])
    else if |sc - bs| < eps then (acc.1, acc.2 ++ [m])
    else acc

/-- `pickAIMoveWise(linesRemaining)`: scan the legal moves accumulating
the tied-best list, then pick uniformly among it (falling back to the
first legal move, as `best[...] || legal[0]` does). -/
def pickAIMoveWise (s : St) (linesRemaining : ℤ) (centerF jitterF : Move → ℚ)
    (rpick : ℕ) : Option Move :=
  let legal := legalMovesList s
  if legal.length = 0 then none
  else
    let best := (legal.foldl (pickStep (fun m => aiScore s linesRemaining (centerF m) (jitterF m) m)) (none, [])).2
    if best.length = 0 then some (legal.getD 0 ⟨0, 0, (0, 0)⟩)
    else some (best.getD (pickIdx best.length rpick) ⟨0, 0, (0, 0)⟩)

/-- One iteration of the `aiPlayTurn()` while-loop (audio omitted), with
the loop entry guards: pick a move, draw it, decrement the budget, resolve
claims, and fire the game-over check. -/
def aiMoveStep (s : St) (centerF jitterF : Move → ℚ) (rpick : ℕ) : St :=
  if s.phase ≠ .playing then s
  else if ¬ ((currentPlayer s).isAI = true) then s
  else if s.rolled = none ∨ s.linesLeft ≤ 0 then s
  else
    match pickAIMoveWise s s.linesLeft centerF jitterF rpick with
    | none => endGameIfNoMoves s
    | some m =>
      let s1 := addEdge s m.a m.b
      let s2 : St := { s1 with linesLeft := max 0 (s1.linesLeft - 1) }
      let s3 := claimTrianglesForEdge s2 m.key
      if ¬ (hasAnyLegalMove s3 = true) then endGameIfNoMoves s3 else s3

/-- The trailing `endTurn()` call of `aiPlayTurn()`, with its guard. -/
def aiEndStep (s : St) : St :=
  if s.phase = .playing ∧ (currentPlayer s).isAI = true ∧ s.linesLeft = 0 then
    endTurnCore s
  else s

/-- The two players created by `startGame()` (names and colors omitted). -/
def initPlayers : List Player := [⟨0, 0, false⟩, ⟨1, 0, true⟩]

/-- The match state right after `startGame()`: fresh players, the board's
precomputed triangles, everything else reset by `hardResetState()`. -/
def startGame (bd : Board) : St :=
  { board := bd, phase := .playing, players := initPlayers, cur := 0, rolled := none,
    linesLeft := 0, edges := [], edgeSet := ∅, triangles := buildTriangles bd,
    selected := none }

/-- One externally triggered transition of a running match: a dot click,
a roll request (human click or the scheduled AI roll), one AI move, or the
AI turn's closing `endTurn`.  Board switching and match resets are the
explicit reset operations and are not match transitions. -/
inductive Step : St → St → Prop
  | click (s : St) (id : ℕ) : Step s (onDotClick s id)
  | roll (s : St) (rs : List ℕ) (rd : ℕ) : Step s (rollDice s rs rd)
  | aiMove (s : St) (centerF jitterF : Move → ℚ) (rpick : ℕ) :
      Step s (aiMoveStep s centerF jitterF rpick)
  | aiEnd (s : St) : Step s (aiEndStep s)

/-- Reachability within one match. -/
def Reach (s s' : St) : Prop := Relation.ReflTransGen Step s s'

/-- `hardResetState()` from the source: clear edges, dice, budget,
selection and player index, null every triangle owner and zero every
score.  (Excluded from `Step`: it starts a new match.) -/
def hardResetState (s : St) : St :=
  { s with
    edges := [], edgeSet := ∅, rolled := none, linesLeft := 0, selected := none,
    cur := 0,
    triangles := s.triangles.map (fun t => { t with owner := none }),
    players := s.players.map (fun p => { p with score := 0 }) }

/-- The board contract of the spec: neighbor lists are symmetric. -/
def SymmetricBoard (bd : Board) : Prop :=
  ∀ d ∈ bd.dots, ∀ n ∈ d.neighbors, ∃ d2 ∈ bd.dots, d2.id = n ∧ d.id ∈ d2.neighbors

instance (bd : Board) : Decidable (SymmetricBoard bd) := by
  unfold SymmetricBoard
  infer_instance

/-- Well-formedness of the edge state maintained by the page: the listed
keys are distinct and the key set is exactly the set of listed keys. -/
def EdgesWF (s : St) : Prop :=
  (s.edges.map Edge.key).Nodup ∧ s.edgeSet = (s.edges.map Edge.key).toFinset

instance (s : St) : Decidable (EdgesWF s) := by
  unfold EdgesWF
  infer_instance

/-- The non-crossing invariant of the spec: two simultaneously drawn edges
either share an endpoint (touching is allowed) or their segments do not
cross. -/
def NoCross (s : St) : Prop :=
  ∀ e ∈ s.edges, ∀ f ∈ s.edges,
    ¬(e.a = f.a ∨ e.a = f.b ∨ e.b = f.a ∨ e.b = f.b) →
    segmentsCross (dotPt s.board e.a) (dotPt s.board e.b)
      (dotPt s.board f.a) (dotPt s.board f.b) = false

/-- The inductive part of the match invariant: well-formed edge state,
non-negative budget, no crossing edges. -/
def Inv3 (s : St) : Prop :=
  EdgesWF s ∧ 0 ≤ s.linesLeft ∧ NoCross s

/-- The full match invariant: `Inv3` plus "in the gameover phase no legal
move remains". -/
def Inv (s : St) : Prop :=
  Inv3 s ∧ (s.phase = .gameover → remainingLegalMovesCount s = 0)

/-- Triangle-owner monotone step: every triangle slot keeps a non-null
owner. -/
def OwnerMono (s t : St) : Prop :=
  ∀ i : ℕ, ∀ p : ℕ, ∀ t0 : Triangle, s.triangles[i]? = some t0 → t0.owner = some p →
    ∃ t1 : Triangle, t.triangles[i]? = some t1 ∧ t1.owner = some p ∧
      t1.a = t0.a ∧ t1.b = t0.b ∧ t1.c = t0.c ∧ t1.edges = t0.edges

/-- A legal sequence of draws: each move is legal in the state reached by
drawing the previous ones. -/
def SeqLegal : St → List Move → Prop
  | _, [] => True
  | s, m :: ms =>
    isLegalMove s m.a m.b = true ∧ m.key = makeEdgeKey m.a m.b ∧
      SeqLegal (addEdge s m.a m.b) ms

/-- The player can complete `n` sequential legal, non-crossing draws. -/
def CanDraw (s : St) (n : ℕ) : Prop :=
  ∃ ms : List Move, ms.length = n ∧ SeqLegal s ms

/-- A minimal 3-dot board (one triangle), used to instantiate theorems on
concrete states. -/
def triBoard : Board :=
  ⟨[⟨0, 0, 0, [1, 2]⟩, ⟨1, 4, 0, [0, 2]⟩, ⟨2, 0, 4, [0, 1]⟩], 10, 10⟩

def triBoardTri : Triangle := ⟨0, 1, 2, [(0, 1), (1, 2), (0, 2)], none⟩

/-- `triBoard` mid-match: all three edges drawn, triangle not yet
claimed, one budgeted line left. -/
def fullState : St :=
  { board := triBoard, phase := .playing, players := initPlayers, cur := 0,
    rolled := some 3, linesLeft := 1,
    edges := [⟨0, 1, (0, 1), 0⟩, ⟨1, 2, (1, 2), 0⟩, ⟨0, 2, (0, 2), 0⟩],
    edgeSet := {(0, 1), (1, 2), (0, 2)}, triangles := [triBoardTri],
    selected := none }

/-- `triBoard` mid-match with the AI to move and an exhausted budget. -/
def aiEndState : St :=
  { board := triBoard, phase := .playing, players := initPlayers, cur := 1,
    rolled := some 1, linesLeft := 0,
    edges := [⟨1, 2, (1, 2), 0⟩],
    edgeSet := {(1, 2)}, triangles := [⟨0, 1, 2, [(0, 1), (1, 2), (0, 2)], none⟩],
    selected := none }

/-- A board with a single isolated dot: no potential edge exists, so the
freshly started match is a playing state with no legal move at all. -/
def lonelyBoard : Board :=
  ⟨[⟨0, 0, 0, []⟩], 10, 10⟩

/-- `triBoard` mid-match: the triangle already claimed by player 0, the AI
to move on an exhausted budget. -/
def ownedState : St :=
  { board := triBoard, phase := .playing, players := initPlayers, cur := 1,
    rolled := some 1, linesLeft := 0,
    edges := [⟨0, 1, (0, 1), 0⟩, ⟨1, 2, (1, 2), 0⟩, ⟨0, 2, (0, 2), 0⟩],
    edgeSet := {(0, 1), (1, 2), (0, 2)},
    triangles := [⟨0, 1, 2, [(0, 1), (1, 2), (0, 2)], some 0⟩],
    selected := none }

/-- `triBoard` mid-match: one edge drawn, a rolled budget of 2, dot 1
selected. -/
def midState : St :=
  { board := triBoard, phase := .playing, players := initPlayers, cur := 0,
    rolled := some 2, linesLeft := 2,
    edges := [⟨1, 2, (1, 2), 0⟩],
    edgeSet := {(1, 2)}, triangles := [⟨0, 1, 2, [(0, 1), (1, 2), (0, 2)], none⟩],
    selected := some 1 }

end Arena

namespace Engine

inductive PlayerId where
  | HUMAN
  | AI
deriving DecidableEq, Repr

inductive GameStatus where
  | idle
  | playing
  | ended
deriving DecidableEq, Repr

/-- A dot id `"D_x_y"`, embedded as `(x, y)`. -/
abbrev DotId := ℕ × ℕ

/-- An edge id `"E_p__q"`, embedded as the ordered pair `(p, q)`. -/
abbrev EdgeId := DotId × DotId

structure Dot where
  id : DotId
  x : ℚ
  y : ℚ
deriving DecidableEq, Repr

structure Edge where
  id : EdgeId
  a : DotId
  b : DotId
  owner : Option PlayerId
deriving DecidableEq, Repr

/-- A triangle; the id `"T_n"` is embedded as `n`. -/
structure Triangle where
  id : ℕ
  edgeIds : List EdgeId
  owner : Option PlayerId
deriving DecidableEq, Repr

structure Dice where
  value : Option ℕ
  sides : ℕ
deriving DecidableEq, Repr

structure Scores where
  human : ℕ
  ai : ℕ
deriving DecidableEq, Repr

inductive BoardId where
  | SMALL
  | MEDIUM
deriving DecidableEq, Repr

structure GameConfig where
  board : BoardId
  diceSides : ℕ
  startingPlayer : PlayerId
deriving DecidableEq, Repr

/-- A move; the only `type` is `CLAIM_EDGE`, so only the edge id is kept. -/
structure Move where
  edgeId : EdgeId
deriving DecidableEq, Repr

inductive Winner where
  | HUMAN
  | AI
  | DRAW
deriving DecidableEq, Repr

structure GameState where
  config : GameConfig
  status : GameStatus
  currentPlayer : PlayerId
  turn : ℕ
  dice : Dice
  dots : List Dot
  edges : List Edge
  triangles : List Triangle
  scores : Scores
  lastMove : Option Move
  lastTriangleCaptures : List ℕ
  winner : Option Winner
deriving DecidableEq, Repr

/-- JavaScript string comparison of two generated dot ids `"D_x_y"`: the
coordinates are single digits, so it is lexicographic on `(x, y)`. -/
def dotIdLt (a b : DotId) : Bool :=
  a.1 < b.1 || (a.1 == b.1 && a.2 < b.2)

def dotId (x y : ℕ) : DotId := (x, y)

/-- `edgeId(a, b)` of `createSmallBoard`: the undirected id with the
endpoints in string order. -/
def edgeId (a b : DotId) : EdgeId :=
  if dotIdLt a b then (a, b) else (b, a)

/-- The coordinate map of `createSmallBoard`: `(i / 2) * 80 + 10`. -/
def toCoord (i : ℕ) : ℚ := (i : ℚ) / 2 * 80 + 10

/-- The 3x3 dot grid of `createSmallBoard`, `y` outer, `x` inner. -/
def smallDots : List Dot :=
  (List.range 3).flatMap (fun y =>
    (List.range 3).map (fun x => ⟨dotId x y, toCoord x, toCoord y⟩))

/-- The `addEdge` helper of `createSmallBoard`: the insertion-ordered,
deduplicating `edgeMap`, embedded as a list; returns the id. -/
def addEdgeB (m : List Edge) (a b : DotId) : List Edge × EdgeId :=
  let i := edgeId a b
  if m.any (fun e => e.id == i) then (m, i) else (m ++ [⟨i, a, b, none⟩], i)

/-- The horizontal edge pairs, `y` outer, `x` inner. -/
def hPairs : List (DotId × DotId) :=
  (List.range 3).flatMap (fun y =>
    (List.range 2).map (fun x => (dotId x y, dotId (x + 1) y)))

/-- The vertical edge pairs, `x` outer, `y` inner. -/
def vPairs : List (DotId × DotId) :=
  (List.range 3).flatMap (fun x =>
    (List.range 2).map (fun y => (dotId x y, dotId x (y + 1))))

/-- The cell corners `(cx, cy)`, `cy` outer. -/
def cells : List (ℕ × ℕ) :=
  (List.range 2).flatMap (fun cy => (List.range 2).map (fun cx => (cx, cy)))

/-- The per-cell step of `createSmallBoard`: add the diagonal, then the
two triangles `tl-tr-br` and `tl-bl-br` with their edges, threading the
edge map and the triangle counter. -/
def cellFold (acc : List Edge × List Triangle × ℕ) (c : ℕ × ℕ) :
    List Edge × List Triangle × ℕ :=
  let tl := dotId c.1 c.2
  let tr := dotId (c.1 + 1) c.2
  let bl := dotId c.1 (c.2 + 1)
  let br := dotId (c.1 + 1) (c.2 + 1)
  let r1 := addEdgeB acc.1 tl br
  let diag := r1.2
  let r2 := addEdgeB r1.1 tl tr
  let r3 := addEdgeB r2.1 tr br
  let count1 := acc.2.2 + 1
  let tris1 := acc.2.1 ++ [⟨count1, [r2.2, r3.2, diag], none⟩]
  let r4 := addEdgeB r3.1 tl bl
  let r5 := addEdgeB r4.1 bl br
  let count2 := count1 + 1
  (r5.1, tris1 ++ [⟨count2, [r4.2, r5.2, diag], none⟩], count2)

/-- The edge map after the horizontal and vertical passes. -/
def edgesAfterHV : List Edge :=
  (hPairs ++ vPairs).foldl (fun m p => (addEdgeB m p.1 p.2).1) []

def smallBuild : List Edge × List Triangle × ℕ :=
  cells.foldl cellFold (edgesAfterHV, [], 0)

structure BoardDef where
  dots : List Dot
  edges : List Edge
  triangles : List Triangle
deriving DecidableEq, Repr

/-- `createSmallBoard()` from `boards.ts`. -/
def createSmallBoard : BoardDef :=
  ⟨smallDots, smallBuild.1, smallBuild.2.1⟩

/-- The optional `config` argument of `newGame` (`Partial<GameConfig>`). -/
structure PartialGameConfig where
  board : Option BoardId
  diceSides : Option ℕ
  startingPlayer : Option PlayerId
deriving DecidableEq, Repr

def initialScores : Scores := ⟨0, 0⟩

/-- `newGame(config?)` from `engine.ts`: merge the defaults, build the
small board (whatever `config.board` says), and return the fresh playing
state. -/
def newGame (config : PartialGameConfig) : GameState :=
  let merged : GameConfig :=
    ⟨config.board.getD .SMALL, config.diceSides.getD 6, config.startingPlayer.getD .HUMAN⟩
  let board := createSmallBoard
  { config := merged, status := .playing, currentPlayer := merged.startingPlayer,
    turn := 1, dice := ⟨none, merged.diceSides⟩, dots := board.dots,
    edges := board.edges, triangles := board.triangles, scores := initialScores,
    lastMove := none, lastTriangleCaptures := [], winner := none }

/-- `rollDice` from `engine.ts`: uniform in `[1, sides]`, untouched unless
playing.  (`sides` is never `0` in practice; the embedding rolls `1`
there, as `Math.floor(Math.random()*0)+1` does.) -/
def rollDice (s : GameState) (r : ℕ) : GameState :=
  if s.status ≠ .playing then s
  else
    let value := (if s.dice.sides = 0 then 0 else r % s.dice.sides) + 1
    { s with dice := { s.dice with value := some value } }

/-- `getLegalMoves` from `engine.ts` (MVP rule: any unowned edge). -/
def getLegalMoves (s : GameState) : List Move :=
  if s.status ≠ .playing then []
  else (s.edges.filter (fun e => e.owner = none)).map (fun e => ⟨e.id⟩)

/-- The owner of edge `eid`, `edges.find(...)?.owner ?? null`. -/
def ownerOfEdge (edges : List Edge) (eid : EdgeId) : Option PlayerId :=
  match edges.find? (fun e => e.id == eid) with
  | some e => e.owner
  | none => none

/-- `triangleOwnerIfComplete` from `utils.ts`: all three edges owned and
by the same player. -/
def triangleOwnerIfComplete (tri : Triangle) (edges : List Edge) : Option PlayerId :=
  let owners := tri.edgeIds.map (ownerOfEdge edges)
  if owners.any (fun o => o = none) then none
  else
    let o0 := owners.getD 0 none
    let o1 := owners.getD 1 none
    let o2 := owners.getD 2 none
    if o0 = o1 ∧ o1 = o2 then o0 else none

def addScore (sc : Scores) (p : PlayerId) (n : ℕ) : Scores :=
  match p with
  | .HUMAN => { sc with human := sc.human + n }
  | .AI => { sc with ai := sc.ai + n }

def scoreOf (sc : Scores) (p : PlayerId) : ℕ :=
  match p with
  | .HUMAN => sc.human
  | .AI => sc.ai

/-- `applyMove` from `engine.ts`: claim the edge for the current player,
award every newly complete same-owner triangle, end the game when all
edges are owned, and — capture keeps the turn — switch players only when
nothing was captured. -/
def applyMove (s : GameState) (mv : Move) : GameState :=
  if s.status ≠ .playing then s
  else if ¬ ((getLegalMoves s).any (fun m => m.edgeId == mv.edgeId) = true) then s
  else
    let edges := s.edges.map (fun e =>
      if e.id == mv.edgeId then { e with owner := some s.currentPlayer } else e)
    let captured := ((s.triangles.filter (fun t =>
      t.owner = none ∧ (triangleOwnerIfComplete t edges).isSome)).map (fun t => t.id))
    let triangles := s.triangles.map (fun t =>
      if t.owner = none then
        match triangleOwnerIfComplete t edges with
        | some o => { t with owner := some o }
        | none => t
      else t)
    let scores := addScore s.scores s.currentPlayer captured.length
    let allClaimed := edges.all (fun e => e.owner ≠ none)
    let status := if allClaimed then GameStatus.ended else s.status
    let winner :=
      if allClaimed then
        if scores.human = scores.ai then some Winner.DRAW
        else if scores.ai < scores.human then some Winner.HUMAN
        else some Winner.AI
      else s.winner
    let nextPlayer : PlayerId :=
      if 0 < captured.length then s.currentPlayer
      else if s.currentPlayer = .HUMAN then .AI else .HUMAN
    let nextTurn := if 0 < captured.length then s.turn else s.turn + 1
    { s with
      edges := edges, triangles := triangles, scores := scores, status := status,
      winner := winner,
      currentPlayer := if status = .ended then s.currentPlayer else nextPlayer,
      turn := if status = .ended then s.turn else nextTurn,
      lastMove := some mv, lastTriangleCaptures := captured }

end Engine

namespace Arena

lemma eps_pos : 0 < eps := by norm_num [eps]

lemma orient_swap₁ (a b c : Pt) : orient b a c = -orient a b c := by
  unfold orient; ring

lemma orient_rel (a b c d : Pt) :
    orient c d b = orient a b c - orient a b d + orient c d a := by
  unfold orient; ring

lemma onSegment_swap (a b p : Pt) : onSegment b a p = onSegment a b p := by
  simp only [onSegment, min_comm, max_comm]

lemma bool_eq_of_true_iff {x y : Bool} (h : x = true ↔ y = true) : x = y := by
  cases x <;> cases y <;> simp_all

lemma xor_decide_iff (p q : Prop) [Decidable p] [Decidable q] :
    (decide p != decide q) = true ↔ ¬(p ↔ q) := by
  by_cases hp : p <;> by_cases hq : q <;> simp [hp, hq]

/-- If the `(a, b, c)` orientation vanishes (with `ab` nondegenerate in the
sense that `d` is strictly off the line) then `c` decomposes along `ab`. -/
lemma cross_zero_decomp (ux uy px py : ℚ) (hu : ux ≠ 0 ∨ uy ≠ 0)
    (h : ux * py - uy * px = 0) : ∃ t : ℚ, px = t * ux ∧ py = t * uy := by
  rcases hu with hux | huy
  · refine ⟨px / ux, by field_simp, ?_⟩
    field_simp
    linear_combination h
  · refine ⟨py / uy, ?_, by field_simp⟩
    field_simp
    linear_combination -h

lemma between_of_convex (ax bx cx t : ℚ) (h : cx - ax = t * (bx - ax))
    (ht0 : 0 ≤ t) (ht1 : t ≤ 1) : min ax bx ≤ cx ∧ cx ≤ max ax bx := by
  rcases le_total ax bx with hab | hab
  · rw [min_eq_left hab, max_eq_right hab]
    constructor <;> nlinarith
  · rw [min_eq_right hab, max_eq_left hab]
    constructor <;> nlinarith

/-- Core geometric fact behind endpoint-swap invariance of `segmentsCross`:
if `c` is exactly collinear with `a b`, `d` is strictly off that line, and
segment `cd` strictly straddles, then `c` lies in the bounding box of `ab`. -/
lemma collinear_strict_between (a b c d : Pt)
    (h0 : orient a b c = 0) (h2 : orient a b d ≠ 0)
    (hP : ¬((0 < orient c d a) ↔ (0 < orient c d b))) :
    onSegment a b c = true := by
  have hu : b.x - a.x ≠ 0 ∨ b.y - a.y ≠ 0 := by
    by_contra hcon
    push_neg at hcon
    apply h2
    unfold orient
    rw [hcon.1, hcon.2]
    ring
  have h0' : (b.x - a.x) * (c.y - a.y) - (b.y - a.y) * (c.x - a.x) = 0 := h0
  obtain ⟨t, hpx, hpy⟩ := cross_zero_decomp _ _ _ _ hu h0'
  have ho3 : orient c d a = t * orient a b d := by
    unfold orient
    linear_combination (d.y - a.y) * hpx - (d.x - a.x) * hpy
  have ho4 : orient c d b = (t - 1) * orient a b d := by
    rw [orient_rel a b c d, h0, ho3]
    ring
  rw [ho3, ho4] at hP
  have ht : 0 ≤ t ∧ t ≤ 1 := by
    rcases h2.lt_or_lt with ho2 | ho2
    · constructor
      · by_contra hneg
        push_neg at hneg
        exact hP (iff_of_true (by nlinarith) (by nlinarith))
      · by_contra hneg
        push_neg at hneg
        refine hP (iff_of_false ?_ ?_) <;> intro hx <;> nlinarith
    · constructor
      · by_contra hneg
        push_neg at hneg
        refine hP (iff_of_false ?_ ?_) <;> intro hx <;> nlinarith
      · by_contra hneg
        push_neg at hneg
        exact hP (iff_of_true (by nlinarith) (by nlinarith))
  have hx := between_of_convex a.x b.x c.x t hpx ht.1 ht.2
  have hy := between_of_convex a.y b.y c.y t hpy ht.1 ht.2
  have he := eps_pos
  simp only [onSegment, Bool.and_eq_true, decide_eq_true_eq]
  refine ⟨⟨⟨?_, ?_⟩, ?_⟩, ?_⟩ <;> [linarith [hx.1]; linarith [hx.2]; linarith [hy.1]; linarith [hy.2]]

/-- A point that coincides with `a` or with `b` passes `onSegment a b`. -/
lemma onSegment_of_endpoint (a b p : Pt) (h : (p.x = a.x ∧ p.y = a.y) ∨ (p.x = b.x ∧ p.y = b.y)) :
    onSegment a b p = true := by
  have he := eps_pos
  simp only [onSegment, Bool.and_eq_true, decide_eq_true_eq]
  rcases h with ⟨hx, hy⟩ | ⟨hx, hy⟩ <;>
    rw [hx, hy] <;>
    refine ⟨⟨⟨?_, ?_⟩, ?_⟩, ?_⟩ <;>
    [linarith [min_le_left a.x b.x]; linarith [le_max_left a.x b.x];
     linarith [min_le_left a.y b.y]; linarith [le_max_left a.y b.y];
     linarith [min_le_right a.x b.x]; linarith [le_max_right a.x b.x];
     linarith [min_le_right a.y b.y]; linarith [le_max_right a.y b.y]]

lemma bboxMiss_swap₁ (a b c d : Pt) : bboxMiss b a c d = bboxMiss a b c d := by
  simp only [bboxMiss, min_comm, max_comm]

lemma collinearTouch_swap₁ (a b c d : Pt) :
    (collinearTouch b a c d = true) ↔ (collinearTouch a b c d = true) := by
  simp only [collinearTouch, Bool.or_eq_true, Bool.and_eq_true, decide_eq_true_eq,
    orient_swap₁ b a c, orient_swap₁ b a d, abs_neg, onSegment_swap]
  tauto

lemma segmentsCross_swap₁ (a b c d : Pt) (h : segmentsCross b a c d = true) :
    segmentsCross a b c d = true := by
  unfold segmentsCross at h ⊢
  rw [bboxMiss_swap₁] at h
  by_cases hbb : bboxMiss a b c d = true
  · rw [hbb] at h
    simp at h
  · rw [Bool.not_eq_true] at hbb
    rw [hbb] at h ⊢
    simp only [Bool.false_eq_true, if_false] at h ⊢
    by_cases hpc2 : properCross a b c d = true
    · rw [hpc2]
      simp
    · rw [Bool.not_eq_true] at hpc2
      rw [hpc2]
      simp only [Bool.false_eq_true, if_false]
      by_cases hpc : properCross b a c d = true
      · -- the swapped call crossed via strict straddling; the original call
        -- must then cross via a collinear touch
        simp only [properCross, Bool.and_eq_true, xor_decide_iff] at hpc
        obtain ⟨hX, hY⟩ := hpc
        rw [orient_swap₁ a b c, orient_swap₁ a b d] at hX
        have hY' : ¬((0 < orient c d a) ↔ (0 < orient c d b)) := fun hiff => hY hiff.symm
        have hpc2' : (0 < orient a b c) ↔ (0 < orient a b d) := by
          by_contra hne
          have hx2 : properCross a b c d = true := by
            simp only [properCross, Bool.and_eq_true]
            exact ⟨(xor_decide_iff _ _).mpr hne, (xor_decide_iff _ _).mpr hY'⟩
          rw [hpc2] at hx2
          exact absurd hx2 (by simp)
        -- from the sign pattern, exactly one of the two `ab` orientations is
        -- zero and the other is negative
        rcases lt_trichotomy (orient a b c) 0 with h1 | h1 | h1
        · rcases lt_trichotomy (orient a b d) 0 with h2 | h2 | h2
          · exact absurd (iff_of_true (by linarith) (by linarith)) hX
          · -- o1 < 0, o2 = 0 : d is collinear with a b
            simp only [collinearTouch, Bool.or_eq_true, Bool.and_eq_true, decide_eq_true_eq]
            refine Or.inl (Or.inl (Or.inr ⟨by rw [h2]; simpa using eps_pos, ?_⟩))
            have hu : b.x - a.x ≠ 0 ∨ b.y - a.y ≠ 0 := by
              by_contra hcon
              push_neg at hcon
              have hz : orient a b c = 0 := by unfold orient; rw [hcon.1, hcon.2]; ring
              exact absurd hz (by linarith)
            obtain ⟨s, hsx, hsy⟩ := cross_zero_decomp _ _ _ _ hu h2
            have ho3 : orient c d a = -(s * orient a b c) := by
              unfold orient
              linear_combination (-(c.y - a.y)) * hsx + (c.x - a.x) * hsy
            have ho4 : orient c d b = (1 - s) * orient a b c := by
              rw [orient_rel a b c d, h2, ho3]
              ring
            rcases eq_or_ne (orient c d a) 0 with h3 | h3
            · -- then `s = 0`, that is `d = a`
              have hs0 : s = 0 := by
                rcases mul_eq_zero.mp (by linarith [ho3, h3] : s * orient a b c = 0) with hs | ho
                · exact hs
                · exact absurd ho (by linarith)
              rw [hs0] at hsx hsy
              refine onSegment_of_endpoint a b d (Or.inl ⟨by linarith [hsx], by linarith [hsy]⟩)
            · rcases eq_or_ne (orient c d b) 0 with h4 | h4
              · -- then `s = 1`, that is `d = b`
                have hs1 : s = 1 := by
                  have hz : (1 - s) * orient a b c = 0 := by rw [← ho4, h4]
                  rcases mul_eq_zero.mp hz with hs | ho
                  · linarith
                  · exact absurd ho (by linarith)
                rw [hs1] at hsx hsy
                refine onSegment_of_endpoint a b d (Or.inr ⟨by linarith [hsx], by linarith [hsy]⟩)
              · -- both `cd` orientations nonzero: `d` sits strictly between
                refine collinear_strict_between a b d c h2 (by linarith) ?_
                have e3 : orient d c a = -orient c d a := by unfold orient; ring
                have e4 : orient d c b = -orient c d b := by unfold orient; ring
                rw [e3, e4]
                intro hiff
                apply hY'
                constructor
                · intro h5
                  rcases h4.lt_or_lt with h7 | h7
                  · exact absurd (hiff.mpr (by linarith)) (by intro hcon; linarith)
                  · exact h7
                · intro h5
                  rcases h3.lt_or_lt with h6 | h6
                  · exact absurd (hiff.mp (by linarith)) (by intro hcon; linarith)
                  · exact h6
          · exact absurd (hpc2'.mpr h2) (by linarith)
        · -- o1 = 0 : c is collinear with a b
          have h2 : orient a b d < 0 := by
            rcases lt_trichotomy (orient a b d) 0 with h2 | h2 | h2
            · exact h2
            · exact absurd (iff_of_false (by rw [h1]; simp) (by rw [h2]; simp)) hX
            · exact absurd (hpc2'.mpr h2) (by linarith)
          simp only [collinearTouch, Bool.or_eq_true, Bool.and_eq_true, decide_eq_true_eq]
          exact Or.inl (Or.inl (Or.inl ⟨by rw [h1]; simpa using eps_pos,
            collinear_strict_between a b c d h1 (by linarith) hY'⟩))
        · refine absurd (iff_of_false ?_ ?_) hX <;> intro hcon
          · linarith
          · linarith [hpc2'.mp h1]
      · rw [Bool.not_eq_true] at hpc
        rw [hpc] at h
        simp only [Bool.false_eq_true, if_false] at h
        exact (collinearTouch_swap₁ a b c d).mp h

lemma segmentsCross_swap₁_eq (a b c d : Pt) :
    segmentsCross b a c d = segmentsCross a b c d :=
  bool_eq_of_true_iff ⟨segmentsCross_swap₁ a b c d, segmentsCross_swap₁ b a c d⟩

/-- A board dot: integer id, position, sorted neighbor id list. -/
lemma segmentsCross_comm (a b c d : Pt) :
    segmentsCross a b c d = segmentsCross c d a b := by
  apply bool_eq_of_true_iff
  unfold segmentsCross
  have hbb : bboxMiss a b c d = bboxMiss c d a b := by
    apply bool_eq_of_true_iff
    simp only [bboxMiss, Bool.or_eq_true, decide_eq_true_eq]
    tauto
  have hpc : properCross a b c d = properCross c d a b := by
    apply bool_eq_of_true_iff
    simp only [properCross, Bool.and_eq_true, xor_decide_iff]
    tauto
  have hct : collinearTouch a b c d = collinearTouch c d a b := by
    apply bool_eq_of_true_iff
    simp only [collinearTouch, Bool.or_eq_true, Bool.and_eq_true, decide_eq_true_eq]
    tauto
  rw [hbb, hpc, hct]

@[simp] lemma addEdge_board (s : St) (a b : ℕ) : (addEdge s a b).board = s.board := by
  simp only [addEdge]; split <;> rfl

@[simp] lemma addEdge_phase (s : St) (a b : ℕ) : (addEdge s a b).phase = s.phase := by
  simp only [addEdge]; split <;> rfl

@[simp] lemma addEdge_players (s : St) (a b : ℕ) : (addEdge s a b).players = s.players := by
  simp only [addEdge]; split <;> rfl

@[simp] lemma addEdge_cur (s : St) (a b : ℕ) : (addEdge s a b).cur = s.cur := by
  simp only [addEdge]; split <;> rfl

@[simp] lemma addEdge_rolled (s : St) (a b : ℕ) : (addEdge s a b).rolled = s.rolled := by
  simp only [addEdge]; split <;> rfl

@[simp] lemma addEdge_linesLeft (s : St) (a b : ℕ) : (addEdge s a b).linesLeft = s.linesLeft := by
  simp only [addEdge]; split <;> rfl

@[simp] lemma addEdge_triangles (s : St) (a b : ℕ) : (addEdge s a b).triangles = s.triangles := by
  simp only [addEdge]; split <;> rfl

@[simp] lemma addEdge_selected (s : St) (a b : ℕ) : (addEdge s a b).selected = s.selected := by
  simp only [addEdge]; split <;> rfl

@[simp] lemma removeEdgeKey_board (s : St) (k : EdgeKey) : (removeEdgeKey s k).board = s.board := by
  simp only [removeEdgeKey]; split <;> rfl

@[simp] lemma removeEdgeKey_phase (s : St) (k : EdgeKey) : (removeEdgeKey s k).phase = s.phase := by
  simp only [removeEdgeKey]; split <;> rfl

@[simp] lemma removeEdgeKey_players (s : St) (k : EdgeKey) :
    (removeEdgeKey s k).players = s.players := by
  simp only [removeEdgeKey]; split <;> rfl

@[simp] lemma removeEdgeKey_cur (s : St) (k : EdgeKey) : (removeEdgeKey s k).cur = s.cur := by
  simp only [removeEdgeKey]; split <;> rfl

@[simp] lemma removeEdgeKey_rolled (s : St) (k : EdgeKey) :
    (removeEdgeKey s k).rolled = s.rolled := by
  simp only [removeEdgeKey]; split <;> rfl

@[simp] lemma removeEdgeKey_linesLeft (s : St) (k : EdgeKey) :
    (removeEdgeKey s k).linesLeft = s.linesLeft := by
  simp only [removeEdgeKey]; split <;> rfl

@[simp] lemma removeEdgeKey_triangles (s : St) (k : EdgeKey) :
    (removeEdgeKey s k).triangles = s.triangles := by
  simp only [removeEdgeKey]; split <;> rfl

@[simp] lemma removeEdgeKey_selected (s : St) (k : EdgeKey) :
    (removeEdgeKey s k).selected = s.selected := by
  simp only [removeEdgeKey]; split <;> rfl

@[simp] lemma claim_board (s : St) (k : EdgeKey) :
    (claimTrianglesForEdge s k).board = s.board := rfl

@[simp] lemma claim_phase (s : St) (k : EdgeKey) :
    (claimTrianglesForEdge s k).phase = s.phase := rfl

@[simp] lemma claim_cur (s : St) (k : EdgeKey) :
    (claimTrianglesForEdge s k).cur = s.cur := rfl

@[simp] lemma claim_rolled (s : St) (k : EdgeKey) :
    (claimTrianglesForEdge s k).rolled = s.rolled := rfl

@[simp] lemma claim_linesLeft (s : St) (k : EdgeKey) :
    (claimTrianglesForEdge s k).linesLeft = s.linesLeft := rfl

@[simp] lemma claim_edges (s : St) (k : EdgeKey) :
    (claimTrianglesForEdge s k).edges = s.edges := rfl

@[simp] lemma claim_edgeSet (s : St) (k : EdgeKey) :
    (claimTrianglesForEdge s k).edgeSet = s.edgeSet := rfl

@[simp] lemma claim_selected (s : St) (k : EdgeKey) :
    (claimTrianglesForEdge s k).selected = s.selected := rfl

lemma isLegalMove_congr (s t : St) (hb : t.board = s.board) (he : t.edges = s.edges)
    (hs : t.edgeSet = s.edgeSet) (a b : ℕ) : isLegalMove t a b = isLegalMove s a b := by
  unfold isLegalMove hasEdge wouldCrossExistingEdge dotPt findDot
  rw [hb, he, hs]

lemma legalMovesList_congr (s t : St) (hb : t.board = s.board) (he : t.edges = s.edges)
    (hs : t.edgeSet = s.edgeSet) : legalMovesList t = legalMovesList s := by
  unfold legalMovesList
  rw [hb]
  apply List.filter_congr
  intro m _
  rw [isLegalMove_congr s t hb he hs]

lemma hasAnyLegalMove_congr (s t : St) (hb : t.board = s.board) (he : t.edges = s.edges)
    (hs : t.edgeSet = s.edgeSet) : hasAnyLegalMove t = hasAnyLegalMove s := by
  unfold hasAnyLegalMove remainingLegalMovesCount
  rw [legalMovesList_congr s t hb he hs]

@[simp] lemma endGame_board (s : St) : (endGameIfNoMoves s).board = s.board := by
  simp only [endGameIfNoMoves]; split <;> rfl

@[simp] lemma endGame_players (s : St) : (endGameIfNoMoves s).players = s.players := by
  simp only [endGameIfNoMoves]; split <;> rfl

@[simp] lemma endGame_cur (s : St) : (endGameIfNoMoves s).cur = s.cur := by
  simp only [endGameIfNoMoves]; split <;> rfl

@[simp] lemma endGame_edges (s : St) : (endGameIfNoMoves s).edges = s.edges := by
  simp only [endGameIfNoMoves]; split <;> rfl

@[simp] lemma endGame_edgeSet (s : St) : (endGameIfNoMoves s).edgeSet = s.edgeSet := by
  simp only [endGameIfNoMoves]; split <;> rfl

@[simp] lemma endGame_triangles (s : St) : (endGameIfNoMoves s).triangles = s.triangles := by
  simp only [endGameIfNoMoves]; split <;> rfl

@[simp] lemma endTurnCore_board (s : St) : (endTurnCore s).board = s.board := by
  simp only [endTurnCore]; split <;> simp

@[simp] lemma endTurnCore_players (s : St) : (endTurnCore s).players = s.players := by
  simp only [endTurnCore]; split <;> simp

@[simp] lemma endTurnCore_edges (s : St) : (endTurnCore s).edges = s.edges := by
  simp only [endTurnCore]; split <;> simp

@[simp] lemma endTurnCore_edgeSet (s : St) : (endTurnCore s).edgeSet = s.edgeSet := by
  simp only [endTurnCore]; split <;> simp

@[simp] lemma endTurnCore_triangles (s : St) : (endTurnCore s).triangles = s.triangles := by
  simp only [endTurnCore]; split <;> simp

end Arena

namespace Engine

/-- C10: in the MVP engine, `newGame` ignores the requested board: for
every config (including `board := MEDIUM`) the returned state's dots,
edges and triangles are exactly those of `createSmallBoard()` (9 dots, 16
potential edges, 8 triangles), the status is `playing`, both scores are 0
and the dice value is null, while the requested board id is merely
recorded in the merged config. -/
theorem newGame_ignores_board_config (config : PartialGameConfig) :
    (newGame config).dots = createSmallBoard.dots ∧
    (newGame config).edges = createSmallBoard.edges ∧
    (newGame config).triangles = createSmallBoard.triangles ∧
    (newGame config).status = GameStatus.playing ∧
    (newGame config).scores = ⟨0, 0⟩ ∧
    (newGame config).dice.value = none ∧
    (newGame config).config.board = config.board.getD BoardId.SMALL ∧
    createSmallBoard.dots.length = 9 ∧
    createSmallBoard.edges.length = 16 ∧
    createSmallBoard.triangles.length = 8 := by
  refine ⟨?_, ?_, ?_, ?_, ?_, ?_, ?_, by decide, by decide, by decide⟩ <;>
    simp only [newGame, initialScores]

end Engine


namespace Arena

lemma currentPlayer_eq_of_getElem? (s : St) (p : Player) (hp : s.players[s.cur]? = some p) :
    currentPlayer s = p := by
  unfold currentPlayer
  rw [List.getD_eq_getElem?_getD, hp]
  rfl

/-- C2: triangle claim resolution.  `claimTrianglesForEdge` keeps the
triangle list's length; a triangle not containing the new edge's key is
untouched; an already-owned triangle keeps its owner; an unowned candidate
all of whose edges are in the edge set is assigned to the current player;
the current player's score grows by exactly the number of such triangles
(zero, one, or several in one pass) and nobody else's score changes.
Moreover, along the accepting path of `onDotClick`, resolution runs
against the edge set *after* the clicked edge was inserted: a triangle
whose two other edges were already drawn is claimed even though the new
key was not in the edge set before the click. -/
theorem claim_resolution_spec (s : St) (k : EdgeKey) :
    ((claimTrianglesForEdge s k).triangles.length = s.triangles.length) ∧
    (∀ i : ℕ, ∀ t : Triangle, s.triangles[i]? = some t →
      ((k ∉ t.edges → (claimTrianglesForEdge s k).triangles[i]? = some t) ∧
       (∀ p, t.owner = some p → (claimTrianglesForEdge s k).triangles[i]? = some t) ∧
       (k ∈ t.edges → t.owner = none → (∀ e ∈ t.edges, e ∈ s.edgeSet) →
        (claimTrianglesForEdge s k).triangles[i]? =
          some { t with owner := some (currentPlayer s).id }))) ∧
    (∀ j : ℕ, ∀ p : Player, s.players[j]? = some p →
      (claimTrianglesForEdge s k).players[j]? =
        some (if j = s.cur then
          { p with score := p.score +
            s.triangles.countP (fun t => t.edges.contains k && triClaimable s t) }
        else p)) ∧
    (∀ a id : ℕ, s.phase = .playing → (currentPlayer s).isAI = false →
      hasAnyLegalMove s = true → s.rolled ≠ none → 0 < s.linesLeft →
      s.selected = some a → a ≠ id → neighborOk s a id = true →
      hasEdge s a id = false → wouldCrossExistingEdge s a id = false →
      ∀ i : ℕ, ∀ t : Triangle, s.triangles[i]? = some t → t.owner = none →
        makeEdgeKey a id ∈ t.edges →
        (∀ e ∈ t.edges, e ≠ makeEdgeKey a id → e ∈ s.edgeSet) →
        (onDotClick s id).triangles[i]? =
          some { t with owner := some (currentPlayer s).id }) := by
  have hcount : ((trianglesWithEdge s.triangles k).filter (fun t => triClaimable s t)).length
      = s.triangles.countP (fun t => t.edges.contains k && triClaimable s t) := by
    unfold trianglesWithEdge
    rw [List.filter_filter, List.countP_eq_length_filter]
    congr 1
    apply List.filter_congr
    intro x _
    cases hx : x.edges.contains k <;> cases hy : triClaimable s x <;> rfl
  have hmap : ∀ i : ℕ, ∀ t : Triangle, s.triangles[i]? = some t →
      (claimTrianglesForEdge s k).triangles[i]? =
        some (if t.edges.contains k && triClaimable s t then
          { t with owner := some (currentPlayer s).id } else t) := by
    intro i t ht
    show (s.triangles.map _)[i]? = _
    rw [List.getElem?_map, ht]
    rfl
  refine ⟨by simp [claimTrianglesForEdge], ?_, ?_, ?_⟩
  · intro i t ht
    refine ⟨?_, ?_, ?_⟩
    · intro hk
      have hc : t.edges.contains k = false := by
        cases hx : t.edges.contains k
        · rfl
        · exact absurd (List.mem_of_elem_eq_true hx) hk
      rw [hmap i t ht, hc]
      simp
    · intro p hp
      have hc : triClaimable s t = false := by
        unfold triClaimable
        simp [hp]
      rw [hmap i t ht, hc]
      simp
    · intro hk hnone hall
      have h1 : t.edges.contains k = true := List.elem_eq_true_of_mem hk
      have h2 : triClaimable s t = true := by
        unfold triClaimable
        rw [hnone]
        simp only [Bool.and_eq_true]
        refine ⟨rfl, ?_⟩
        simp only [List.all_eq_true]
        intro e he
        simpa [edgeExists] using hall e he
      rw [hmap i t ht, h1, h2]
      simp
  · intro j p hp
    show (s.players.set s.cur _)[j]? = _
    by_cases hj : j = s.cur
    · rw [hj] at hp ⊢
      have hlt : s.cur < s.players.length := (List.getElem?_eq_some_iff.mp hp).1
      rw [List.getElem?_set_self hlt, currentPlayer_eq_of_getElem? s p hp, if_pos rfl,
        hcount]
    · rw [List.getElem?_set_ne (fun h => hj h.symm), hp, if_neg hj]
  · intro a id hphase hai hleg hroll hlines hsel hne hnb hhe hwc i t ht hnone hk hrest
    have hkey : makeEdgeKey a id ∉ s.edgeSet := by
      simpa [hasEdge] using hhe
    have hclaim : ∀ s2 : St, s2.triangles = s.triangles → s2.cur = s.cur →
        s2.players = s.players → s2.edgeSet = insert (makeEdgeKey a id) s.edgeSet →
        (claimTrianglesForEdge s2 (makeEdgeKey a id)).triangles[i]? =
          some { t with owner := some (currentPlayer s).id } := by
      intro s2 h1 h2 h3 h4
      show (s2.triangles.map _)[i]? = _
      rw [h1, List.getElem?_map, ht]
      dsimp only [Option.map]
      have hc1 : t.edges.contains (makeEdgeKey a id) = true := List.elem_eq_true_of_mem hk
      have hcp2 : currentPlayer s2 = currentPlayer s := by
        unfold currentPlayer
        rw [h2, h3]
      have hc2 : triClaimable s2 t = true := by
        unfold triClaimable
        rw [hnone]
        simp only [Bool.and_eq_true]
        refine ⟨rfl, ?_⟩
        simp only [List.all_eq_true]
        intro e he
        simp only [edgeExists, h4, decide_eq_true_eq, Finset.mem_insert]
        by_cases hek : e = makeEdgeKey a id
        · exact Or.inl hek
        · exact Or.inr (hrest e he hek)
      rw [hc1, hc2, hcp2]
      simp
    have hadd : addEdge s a id =
        { s with
          edgeSet := insert (makeEdgeKey a id) s.edgeSet
          edges := s.edges ++ [⟨min a id, max a id, makeEdgeKey a id, (currentPlayer s).id⟩] } := by
      unfold addEdge
      rw [if_neg hkey]
    unfold onDotClick
    rw [if_neg (by simp [hphase]), if_neg (by simp [hai]), if_neg (by simp [hleg]),
      if_neg (by push_neg; exact ⟨hroll, by linarith⟩), hsel]
    dsimp only
    rw [if_neg hne, if_neg (by simp [hnb]), if_neg (by simp [hhe]), if_neg (by simp [hwc]),
      hadd]
    split
    · rw [endGame_triangles]
      exact hclaim _ rfl rfl rfl rfl
    · split
      · rw [endTurnCore_triangles]
        exact hclaim _ rfl rfl rfl rfl
      · exact hclaim _ rfl rfl rfl rfl

end Arena

namespace Arena

/-- Witness for `claim_resolution_spec`: on the one-triangle board with
all three edges drawn, resolving the edge `(0, 1)` assigns the triangle to
the current player and scores exactly one point. -/
theorem claim_resolution_spec_witness :
    (claimTrianglesForEdge fullState (0, 1)).triangles[0]? =
      some { triBoardTri with owner := some (currentPlayer fullState).id } ∧
    (claimTrianglesForEdge fullState (0, 1)).players[0]? =
      some { id := 0, score := 1, isAI := false } := by
  have h := claim_resolution_spec fullState (0, 1)
  constructor
  · exact (h.2.1 0 triBoardTri (by decide)).2.2 (by decide) (by decide) (by decide)
  · have hp := h.2.2.1 0 ⟨0, 0, false⟩ (by decide)
    rw [hp]
    decide

lemma endGame_cases (s : St) :
    endGameIfNoMoves s = s ∨
      ((endGameIfNoMoves s).phase = .gameover ∧ (endGameIfNoMoves s).cur = s.cur) := by
  unfold endGameIfNoMoves
  split
  · exact Or.inl rfl
  · exact Or.inr ⟨rfl, rfl⟩

lemma endTurnCore_cur_phase_congr (s t : St) (hb : t.board = s.board)
    (he : t.edges = s.edges) (hset : t.edgeSet = s.edgeSet) (hcur : t.cur = s.cur)
    (hlen : t.players.length = s.players.length) (hph : t.phase = s.phase) :
    (endTurnCore t).cur = (endTurnCore s).cur ∧
    (endTurnCore t).phase = (endTurnCore s).phase := by
  simp only [endTurnCore]
  have hA : hasAnyLegalMove ({ t with rolled := none, linesLeft := 0, selected := none } : St) =
      hasAnyLegalMove ({ s with rolled := none, linesLeft := 0, selected := none } : St) := by
    apply hasAnyLegalMove_congr <;> simp [hb, he, hset]
  unfold endGameIfNoMoves
  rw [hA]
  split
  · -- moves remain: both states survive the game-over check untouched
    simp only [hph, hcur, hlen]
    split <;> simp [hph, hcur, hlen]
  · -- no move left: both states enter gameover
    simp [hcur]

/-- C8: turn switching.  `endTurn` either ends the game (terminal check)
or advances the current player index by exactly one modulo the player
count; the advance is independent of triangle ownership and of the
players' scores (so captures during the turn never earn an extra turn or
skip anyone); and the AI loop's budget-exhausted exit performs exactly
this `endTurn`. -/
theorem turn_switch_modulo (s : St) :
    ((endTurnCore s).phase = .gameover ∨
      ((endTurnCore s).phase = s.phase ∧
       (endTurnCore s).cur = (s.cur + 1) % s.players.length)) ∧
    (∀ trs : List Triangle, ∀ sc : Player → ℕ,
      (endTurnCore { s with
        triangles := trs
        players := s.players.map (fun p => { p with score := sc p }) }).cur =
          (endTurnCore s).cur ∧
      (endTurnCore { s with
        triangles := trs
        players := s.players.map (fun p => { p with score := sc p }) }).phase =
          (endTurnCore s).phase) ∧
    (s.phase = .playing → (currentPlayer s).isAI = true → s.linesLeft = 0 →
      aiEndStep s = endTurnCore s) := by
  refine ⟨?_, ?_, ?_⟩
  · simp only [endTurnCore]
    split
    · exact Or.inl (by assumption)
    · rename_i h
      rcases endGame_cases { s with rolled := none, linesLeft := 0, selected := none } with
        he | he
      · rw [he] at h ⊢
        exact Or.inr ⟨rfl, rfl⟩
      · exact absurd he.1 h
  · intro trs sc
    exact endTurnCore_cur_phase_congr s _ rfl rfl rfl rfl (by simp) rfl
  · intro h1 h2 h3
    unfold aiEndStep
    rw [if_pos ⟨h1, h2, h3⟩]

/-- Witness for `turn_switch_modulo`: with the AI's budget exhausted on a
board with moves left, the AI's closing step is `endTurn` and the index
wraps back to player 0. -/
theorem turn_switch_modulo_witness :
    aiEndStep aiEndState = endTurnCore aiEndState :=
  (turn_switch_modulo aiEndState).2.2 (by decide) (by decide) (by decide)

end Arena

namespace Arena

lemma find?_dot_eq (l : List Dot) (d : Dot) (hids : (l.map Dot.id).Nodup) (hd : d ∈ l) :
    l.find? (fun e => e.id == d.id) = some d := by
  induction l with
  | nil => cases hd
  | cons x xs ih =>
    rcases List.mem_cons.mp hd with rfl | hmem
    · rw [List.find?_cons_of_pos]
      simp
    · have hxne : x.id ≠ d.id := by
        have hnotin : x.id ∉ xs.map Dot.id := (List.nodup_cons.mp hids).1
        intro hEq
        exact hnotin (hEq ▸ List.mem_map_of_mem Dot.id hmem)
      rw [List.find?_cons_of_neg]
      · exact ih (List.nodup_cons.mp hids).2 hmem
      · simp [hxne]

lemma wouldCross_eq_false_iff (s : St) (a b : ℕ) :
    wouldCrossExistingEdge s a b = false ↔
      ∀ e ∈ s.edges, (e.a = a ∨ e.b = a ∨ e.a = b ∨ e.b = b) ∨
        segmentsCross (dotPt s.board a) (dotPt s.board b)
          (dotPt s.board e.a) (dotPt s.board e.b) = false := by
  unfold wouldCrossExistingEdge
  rw [List.any_eq_false]
  constructor
  · intro h e he
    have h2 := h e he
    by_cases hs : sharesEndpoint e a b = true
    · left
      have hs2 := hs
      simp only [sharesEndpoint, Bool.or_eq_true, beq_iff_eq] at hs2
      tauto
    · right
      rw [if_neg hs] at h2
      simpa using h2
  · intro h e he
    rcases h e he with hsh | hcr
    · have hshb : sharesEndpoint e a b = true := by
        simp only [sharesEndpoint, Bool.or_eq_true, beq_iff_eq]
        tauto
      simp [hshb]
    · by_cases hs : sharesEndpoint e a b = true
      · simp [hs]
      · rw [if_neg hs]
        simp [hcr]

lemma isLegalMove_iff (s : St) (a b : ℕ) :
    isLegalMove s a b = true ↔
      makeEdgeKey a b ∉ s.edgeSet ∧
      (∃ da, findDot s.board a = some da ∧ b ∈ da.neighbors) ∧
      wouldCrossExistingEdge s a b = false := by
  unfold isLegalMove
  by_cases hhe : hasEdge s a b
  · have hin : makeEdgeKey a b ∈ s.edgeSet := by simpa [hasEdge] using hhe
    simp [hhe, hin]
  · have hnin : makeEdgeKey a b ∉ s.edgeSet := by simpa [hasEdge] using hhe
    rw [if_neg hhe]
    cases hda : findDot s.board a with
    | none => simp [hnin]
    | some da =>
      by_cases hc : b ∈ da.neighbors
      · have hcb : da.neighbors.contains b = true := List.elem_eq_true_of_mem hc
        simp [hcb, hnin, hc]
      · have hcb : da.neighbors.contains b = false := by
          cases hx : da.neighbors.contains b
          · rfl
          · exact absurd (List.mem_of_elem_eq_true hx) hc
        simp [hcb, hc]

/-- C6: move legality.  `isLegalMove(a, b)` holds exactly when `a` and `b`
are mutual neighbors (the mutuality following from symmetric neighbor
lists), the canonical key `(a, b)` is not yet drawn, and the candidate
segment crosses no drawn edge it does not share an endpoint with; and the
legal-move enumeration filters `isLegalMove` over the neighbor-pair list,
which lists each unordered neighbor pair exactly once via `a < b`. -/
theorem isLegal_spec (s : St)
    (hids : (s.board.dots.map Dot.id).Nodup)
    (hsym : SymmetricBoard s.board)
    (hnbd : ∀ d ∈ s.board.dots, d.neighbors.Nodup) :
    (∀ a b : ℕ, isLegalMove s a b = true ↔
      ((∃ da, findDot s.board a = some da ∧ b ∈ da.neighbors) ∧
       (∃ db, findDot s.board b = some db ∧ a ∈ db.neighbors) ∧
       makeEdgeKey a b ∉ s.edgeSet ∧
       (∀ e ∈ s.edges, (e.a = a ∨ e.b = a ∨ e.a = b ∨ e.b = b) ∨
         segmentsCross (dotPt s.board a) (dotPt s.board b)
           (dotPt s.board e.a) (dotPt s.board e.b) = false))) ∧
    legalMovesList s =
      (allPotentialNeighborEdges s.board).filter (fun m => isLegalMove s m.a m.b) ∧
    (∀ m ∈ allPotentialNeighborEdges s.board,
      m.a < m.b ∧ m.key = makeEdgeKey m.a m.b ∧
      ∃ d ∈ s.board.dots, m.a = d.id ∧ m.b ∈ d.neighbors) ∧
    (allPotentialNeighborEdges s.board).Nodup ∧
    (∀ d ∈ s.board.dots, ∀ n ∈ d.neighbors, d.id < n →
      (⟨d.id, n, makeEdgeKey d.id n⟩ : Move) ∈ allPotentialNeighborEdges s.board) := by
  refine ⟨?_, rfl, ?_, ?_, ?_⟩
  · intro a b
    rw [isLegalMove_iff, wouldCross_eq_false_iff]
    constructor
    · rintro ⟨hset, ⟨da, hda, hmem⟩, hcross⟩
      have hdain : da ∈ s.board.dots := List.mem_of_find?_eq_some hda
      have hdaid : da.id = a := by simpa using List.find?_some hda
      obtain ⟨d2, hd2in, hd2id, hd2nb⟩ := hsym da hdain b hmem
      have hfind2 : findDot s.board b = some d2 := by
        have hf := find?_dot_eq s.board.dots d2 hids hd2in
        unfold findDot
        rw [hd2id] at hf
        exact hf
      rw [hdaid] at hd2nb
      exact ⟨⟨da, hda, hmem⟩, ⟨d2, hfind2, hd2nb⟩, hset, hcross⟩
    · rintro ⟨hda, _, hset, hcross⟩
      exact ⟨hset, hda, hcross⟩
  · intro m hm
    unfold allPotentialNeighborEdges at hm
    rw [List.mem_flatMap] at hm
    obtain ⟨d, hd, hmm⟩ := hm
    rw [List.mem_map] at hmm
    obtain ⟨n, hn, rfl⟩ := hmm
    have hn' := List.mem_filter.mp hn
    exact ⟨by simpa using hn'.2, rfl, d, hd, rfl, hn'.1⟩
  · unfold allPotentialNeighborEdges
    rw [List.nodup_flatMap]
    constructor
    · intro d hd
      have hinj : Function.Injective (fun n => (⟨d.id, n, makeEdgeKey d.id n⟩ : Move)) := by
        intro n1 n2 hEq
        exact congrArg Move.b hEq
      exact ((hnbd d hd).filter _).map hinj
    · have hpw : s.board.dots.Pairwise (fun d e => d.id ≠ e.id) := by
        have hp : List.Pairwise (fun x y => x ≠ y) (s.board.dots.map Dot.id) := hids
        rwa [List.pairwise_map] at hp
      apply hpw.imp
      intro d e hne
      intro m hmd hme
      rw [List.mem_map] at hmd hme
      obtain ⟨n1, _, rfl⟩ := hmd
      obtain ⟨n2, _, hEq⟩ := hme
      exact hne (congrArg Move.a hEq).symm
  · intro d hd n hn hlt
    unfold allPotentialNeighborEdges
    rw [List.mem_flatMap]
    exact ⟨d, hd, List.mem_map_of_mem _ (List.mem_filter.mpr ⟨hn, by simpa using hlt⟩)⟩

/-- Witness for `isLegal_spec` on the concrete 3-dot board: the neighbor
pair `(0, 1)` is enumerated, the enumeration has no duplicates, and the
fresh board's move `(0, 1)` is legal with both directions of neighborship.
-/
theorem isLegal_spec_witness :
    (⟨0, 1, makeEdgeKey 0 1⟩ : Move) ∈ allPotentialNeighborEdges (startGame triBoard).board ∧
    (allPotentialNeighborEdges (startGame triBoard).board).Nodup := by
  have h := isLegal_spec (startGame triBoard) (by decide) (by decide) (by decide)
  exact ⟨h.2.2.2.2 ⟨0, 0, 0, [1, 2]⟩ (by decide) 1 (by decide) (by decide), h.2.2.2.1⟩

end Arena

namespace Arena

lemma mem_allPNE_spec (bd : Board) (m : Move) (hm : m ∈ allPotentialNeighborEdges bd) :
    m.a < m.b ∧ m.key = makeEdgeKey m.a m.b ∧ ∃ d ∈ bd.dots, m.a = d.id ∧ m.b ∈ d.neighbors := by
  unfold allPotentialNeighborEdges at hm
  rw [List.mem_flatMap] at hm
  obtain ⟨d, hd, hmm⟩ := hm
  rw [List.mem_map] at hmm
  obtain ⟨n, hn, rfl⟩ := hmm
  have hn' := List.mem_filter.mp hn
  exact ⟨by simpa using hn'.2, rfl, d, hd, rfl, hn'.1⟩

lemma addEdge_fresh (s : St) (a b : ℕ) (h : makeEdgeKey a b ∉ s.edgeSet) :
    addEdge s a b = { s with
      edgeSet := insert (makeEdgeKey a b) s.edgeSet
      edges := s.edges ++ [⟨min a b, max a b, makeEdgeKey a b, (currentPlayer s).id⟩] } := by
  unfold addEdge
  rw [if_neg h]

lemma edgesWF_addEdge (s : St) (a b : ℕ) (h : makeEdgeKey a b ∉ s.edgeSet)
    (hwf : EdgesWF s) : EdgesWF (addEdge s a b) := by
  rw [addEdge_fresh s a b h]
  obtain ⟨hnd, hset⟩ := hwf
  have hknotin : makeEdgeKey a b ∉ s.edges.map Edge.key := by
    rw [hset] at h
    simpa [List.mem_toFinset] using h
  constructor
  · show (List.map Edge.key (s.edges ++ [_])).Nodup
    rw [List.map_append, List.nodup_append]
    refine ⟨hnd, by simp, ?_⟩
    intro x hx
    simp only [List.map_cons, List.map_nil, List.mem_singleton]
    intro hEq
    rw [hEq] at hx
    exact hknotin hx
  · show insert (makeEdgeKey a b) s.edgeSet = (List.map Edge.key (s.edges ++ [_])).toFinset
    rw [List.map_append, List.toFinset_append, ← hset]
    simp [Finset.insert_eq, Finset.union_comm]

lemma remove_addEdge (s : St) (a b : ℕ) (h : makeEdgeKey a b ∉ s.edgeSet)
    (hwf : EdgesWF s) : removeEdgeKey (addEdge s a b) (makeEdgeKey a b) = s := by
  rw [addEdge_fresh s a b h]
  unfold removeEdgeKey
  rw [if_pos (by simp)]
  have hknotin : ∀ e ∈ s.edges, e.key ≠ makeEdgeKey a b := by
    intro e he hEq
    apply h
    rw [hwf.2, List.mem_toFinset]
    exact hEq ▸ List.mem_map_of_mem Edge.key he
  have h1 : (insert (makeEdgeKey a b) s.edgeSet).erase (makeEdgeKey a b) = s.edgeSet :=
    Finset.erase_insert h
  have h2 : ((s.edges ++ [(⟨min a b, max a b, makeEdgeKey a b, (currentPlayer s).id⟩ : Edge)]).filter
      (fun e => e.key ≠ makeEdgeKey a b)) = s.edges := by
    rw [List.filter_append]
    have hl : s.edges.filter (fun e => e.key ≠ makeEdgeKey a b) = s.edges :=
      List.filter_eq_self.mpr (fun e he => by simpa using hknotin e he)
    rw [hl]
    simp
  simp only [h1, h2]

lemma undo_addMoves (s : St) (ms : List Move) (hwf : EdgesWF s) (hseq : SeqLegal s ms) :
    undoAll (addMoves s ms) (ms.map Move.key) = s := by
  induction ms generalizing s with
  | nil => rfl
  | cons m ms ih =>
    obtain ⟨hleg, hkey, hrest⟩ := hseq
    have hfresh : makeEdgeKey m.a m.b ∉ s.edgeSet := ((isLegalMove_iff s m.a m.b).mp hleg).1
    have hwf1 : EdgesWF (addEdge s m.a m.b) := edgesWF_addEdge s m.a m.b hfresh hwf
    show undoAll (addMoves (addEdge s m.a m.b) ms) (m.key :: ms.map Move.key) = s
    unfold undoAll
    rw [List.foldr_cons]
    have hinner : (ms.map Move.key).foldr (fun k t => removeEdgeKey t k)
        (addMoves (addEdge s m.a m.b) ms) = addEdge s m.a m.b := ih _ hwf1 hrest
    rw [hinner, hkey]
    exact remove_addEdge s m.a m.b hfresh hwf

lemma seqLegal_take (ms : List Move) : ∀ (s : St) (n : ℕ), SeqLegal s ms →
    SeqLegal s (ms.take n) := by
  induction ms with
  | nil =>
    intro s n _
    simp only [List.take_nil]
    trivial
  | cons m rest ih =>
    intro s n h
    cases n with
    | zero => trivial
    | succ n => exact ⟨h.1, h.2.1, ih _ n h.2.2⟩

lemma canDraw_le (s : St) (m n : ℕ) (h : CanDraw s n) (hle : m ≤ n) : CanDraw s m := by
  obtain ⟨ms, hlen, hseq⟩ := h
  exact ⟨ms.take m, by rw [List.length_take, hlen]; omega, seqLegal_take ms s m hseq⟩

lemma canDraw_max (s : St) (m n : ℕ) (h1 : CanDraw s m) (h2 : CanDraw s n) :
    CanDraw s (max m n) := by
  rcases max_choice m n with h | h <;> rw [h]
  · exact h1
  · exact h2

lemma canDraw_one (s : St) (h : (legalMovesList s).length ≠ 0) : CanDraw s 1 := by
  have hne : legalMovesList s ≠ [] := fun hc => h (by rw [hc]; rfl)
  obtain ⟨m, hm⟩ := List.exists_mem_of_ne_nil _ hne
  have hleg : isLegalMove s m.a m.b = true := (List.mem_filter.mp hm).2
  have hkey : m.key = makeEdgeKey m.a m.b :=
    (mem_allPNE_spec _ m (List.mem_filter.mp hm).1).2.1
  exact ⟨[m], rfl, hleg, hkey, trivial⟩

lemma getD_mem_of_lt {α : Type} (l : List α) (i : ℕ) (d : α) (h : i < l.length) :
    l.getD i d ∈ l := by
  rw [List.getD_eq_getElem?_getD, List.getElem?_eq_getElem h]
  exact List.getElem_mem h

lemma trialLoop_spec (depthCap : ℕ) :
    ∀ (fuel : ℕ) (s : St) (best count : ℕ) (added : List EdgeKey) (r : List ℕ),
      EdgesWF s → count ≤ best →
      ∃ ms : List Move,
        (trialLoop s depthCap best count added r fuel).st = addMoves s ms ∧
        (trialLoop s depthCap best count added r fuel).added = added ++ ms.map Move.key ∧
        (trialLoop s depthCap best count added r fuel).best = max best (count + ms.length) ∧
        SeqLegal s ms := by
  intro fuel
  induction fuel with
  | zero =>
    intro s best count added r hwf hcb
    exact ⟨[], rfl, by simp [trialLoop], by simp [trialLoop]; omega, trivial⟩
  | succ fuel ih =>
    intro s best count added r hwf hcb
    simp only [trialLoop]
    by_cases hlegal : (legalMovesList s).length = 0
    · rw [if_pos hlegal]
      exact ⟨[], rfl, by simp, by simp; omega, trivial⟩
    · rw [if_neg hlegal]
      have hlt : pickIdx (legalMovesList s).length (r.headD 0) < (legalMovesList s).length :=
        Nat.mod_lt _ (Nat.pos_of_ne_zero hlegal)
      set m := (legalMovesList s).getD (pickIdx (legalMovesList s).length (r.headD 0))
        ⟨0, 0, (0, 0)⟩ with hmdef
    -- the picked move is legal in the current speculative state
      have hm : m ∈ legalMovesList s := getD_mem_of_lt _ _ _ hlt
      have hleg : isLegalMove s m.a m.b = true := (List.mem_filter.mp hm).2
      have hkey : m.key = makeEdgeKey m.a m.b :=
        (mem_allPNE_spec _ m (List.mem_filter.mp hm).1).2.1
      have hfresh : makeEdgeKey m.a m.b ∉ s.edgeSet := ((isLegalMove_iff s m.a m.b).mp hleg).1
      have hwf1 : EdgesWF (addEdge s m.a m.b) := edgesWF_addEdge s m.a m.b hfresh hwf
      by_cases hbreak : depthCap ≤ max best (count + 1)
      · rw [if_pos hbreak]
        exact ⟨[m], rfl, rfl, rfl, hleg, hkey, trivial⟩
      · rw [if_neg hbreak]
        obtain ⟨ms, h1, h2, h3, h4⟩ := ih (addEdge s m.a m.b) (max best (count + 1))
          (count + 1) (added ++ [m.key]) r.tail hwf1 (le_max_right _ _)
        refine ⟨m :: ms, ?_, ?_, ?_, hleg, hkey, h4⟩
        · rw [h1]
          rfl
        · rw [h2]
          simp
        · rw [h3]
          simp only [List.length_cons]
          omega

lemma triesLoop_spec (depthCap : ℕ) :
    ∀ (tries : ℕ) (s : St) (best : ℕ) (r : List ℕ), EdgesWF s →
      (triesLoop s depthCap best r tries).2 = s ∧
      best ≤ (triesLoop s depthCap best r tries).1 ∧
      (CanDraw s best → CanDraw s (triesLoop s depthCap best r tries).1) := by
  intro tries
  induction tries with
  | zero =>
    intro s best r hwf
    exact ⟨rfl, le_refl _, id⟩
  | succ t ih =>
    intro s best r hwf
    simp only [triesLoop]
    obtain ⟨ms, h1, h2, h3, h4⟩ := trialLoop_spec depthCap depthCap s best 0 [] r hwf
      (Nat.zero_le _)
    have hundo : undoAll (trialLoop s depthCap best 0 [] r depthCap).st
        (trialLoop s depthCap best 0 [] r depthCap).added = s := by
      rw [h1, h2]
      simpa using undo_addMoves s ms hwf h4
    rw [hundo]
    obtain ⟨ih1, ih2, ih3⟩ := ih s (trialLoop s depthCap best 0 [] r depthCap).best
      (trialLoop s depthCap best 0 [] r depthCap).rest hwf
    refine ⟨ih1, ?_, ?_⟩
    · refine le_trans ?_ ih2
      rw [h3]
      exact le_max_left _ _
    · intro hcd
      apply ih3
      rw [h3]
      exact canDraw_max s best _ hcd (canDraw_le s _ _ ⟨ms, rfl, h4⟩ (by omega))

lemma estimate_spec (s : St) (maxDepth tries : ℕ) (r : List ℕ) (hwf : EdgesWF s) :
    (estimateMaxDrawableThisTurn s maxDepth tries r).2 = s ∧
    ((legalMovesList s).length ≠ 0 →
      1 ≤ (estimateMaxDrawableThisTurn s maxDepth tries r).1 ∧
      CanDraw s (estimateMaxDrawableThisTurn s maxDepth tries r).1) ∧
    ((legalMovesList s).length = 0 →
      (estimateMaxDrawableThisTurn s maxDepth tries r).1 = 0) := by
  unfold estimateMaxDrawableThisTurn
  by_cases h0 : (legalMovesList s).length = 0
  · rw [if_pos h0]
    exact ⟨rfl, fun hne => absurd h0 hne, fun _ => rfl⟩
  · rw [if_neg h0]
    obtain ⟨ht1, ht2, ht3⟩ :=
      triesLoop_spec (min maxDepth (legalMovesList s).length) tries s 1 r hwf
    exact ⟨ht1, fun _ => ⟨ht2, ht3 (canDraw_one s h0)⟩, fun hc => absurd hc h0⟩

end Arena

namespace Arena

/-- C9: the feasibility estimator is side-effect free on the game state:
after `estimateMaxDrawableThisTurn` returns, the edge list, the edge key
set, the triangles (ownership) and the players (scores) are exactly what
they were — in fact the whole state is unchanged, every speculative edge
having been undone. -/
theorem estimator_frame (s : St) (maxDepth tries : ℕ) (r : List ℕ) (hwf : EdgesWF s) :
    (estimateMaxDrawableThisTurn s maxDepth tries r).2.edges = s.edges ∧
    (estimateMaxDrawableThisTurn s maxDepth tries r).2.edgeSet = s.edgeSet ∧
    (estimateMaxDrawableThisTurn s maxDepth tries r).2.triangles = s.triangles ∧
    (estimateMaxDrawableThisTurn s maxDepth tries r).2.players = s.players ∧
    (estimateMaxDrawableThisTurn s maxDepth tries r).2 = s := by
  have h := (estimate_spec s maxDepth tries r hwf).1
  rw [h]
  exact ⟨rfl, rfl, rfl, rfl, rfl⟩

/-- Witness for `estimator_frame`: a full 90-trial estimate on the fresh
3-dot board leaves the state untouched. -/
theorem estimator_frame_witness :
    (estimateMaxDrawableThisTurn (startGame triBoard) 6 90 [2, 1, 0]).2 = startGame triBoard :=
  (estimator_frame (startGame triBoard) 6 90 [2, 1, 0] (by decide)).2.2.2.2

/-- C1: soundness of the feasibility cap.  When at least one legal move
exists, the estimator's answer is a number of draws the player can in fact
complete from the current state (it may under-estimate, never
over-estimate), and any roll produced by `rollDice` through the
feasibility path grants a budget `n` with `1 ≤ n ≤ min 6 estimate` such
that `n` sequential legal, non-crossing draws can be completed without
getting stuck. -/
theorem feasibility_cap_sound (s : St) (rs : List ℕ) (rd : ℕ) (hwf : EdgesWF s)
    (hphase : s.phase = .playing)
    (hidle : ¬(s.rolled ≠ none ∧ 0 < s.linesLeft))
    (hleg : 0 < remainingLegalMovesCount s) :
    CanDraw s (estimateMaxDrawableThisTurn s 6 90 rs).1 ∧
    (∃ n : ℕ, (rollDice s rs rd).rolled = some n ∧
      (rollDice s rs rd).linesLeft = (n : ℤ) ∧
      1 ≤ n ∧ n ≤ min 6 (estimateMaxDrawableThisTurn s 6 90 rs).1 ∧ CanDraw s n) := by
  have hne : (legalMovesList s).length ≠ 0 := by
    unfold remainingLegalMovesCount at hleg
    omega
  obtain ⟨hframe, hcd, _⟩ := estimate_spec s 6 90 rs hwf
  obtain ⟨hfe1, hcde⟩ := hcd hne
  refine ⟨hcde, ?_⟩
  unfold rollDice
  rw [if_neg (by simp [hphase]), if_neg hidle,
    if_neg (by unfold remainingLegalMovesCount at hleg ⊢; omega)]
  have hcap1 : 1 ≤ min 6 (estimateMaxDrawableThisTurn s 6 90 rs).1 := by
    omega
  rw [if_neg (by omega)]
  refine ⟨pickIdx (min 6 (estimateMaxDrawableThisTurn s 6 90 rs).1) rd + 1, rfl, rfl, ?_, ?_, ?_⟩
  · omega
  · have hmod : pickIdx (min 6 (estimateMaxDrawableThisTurn s 6 90 rs).1) rd <
        min 6 (estimateMaxDrawableThisTurn s 6 90 rs).1 :=
      Nat.mod_lt _ (by omega)
    omega
  · apply canDraw_le s _ _ hcde
    have hmod : pickIdx (min 6 (estimateMaxDrawableThisTurn s 6 90 rs).1) rd <
        min 6 (estimateMaxDrawableThisTurn s 6 90 rs).1 :=
      Nat.mod_lt _ (by omega)
    omega

/-- Witness for `feasibility_cap_sound`: a roll on the fresh 3-dot board. -/
theorem feasibility_cap_sound_witness :
    CanDraw (startGame triBoard) (estimateMaxDrawableThisTurn (startGame triBoard) 6 90 [1]).1 ∧
    (∃ n : ℕ, (rollDice (startGame triBoard) [1] 4).rolled = some n ∧
      (rollDice (startGame triBoard) [1] 4).linesLeft = (n : ℤ) ∧
      1 ≤ n ∧ n ≤ min 6 (estimateMaxDrawableThisTurn (startGame triBoard) 6 90 [1]).1 ∧
      CanDraw (startGame triBoard) n) :=
  feasibility_cap_sound (startGame triBoard) [1] 4 (by decide) (by decide)
    (by decide) (by decide)

end Arena

namespace Arena

lemma remaining_congr (s t : St) (hb : t.board = s.board) (he : t.edges = s.edges)
    (hset : t.edgeSet = s.edgeSet) :
    remainingLegalMovesCount t = remainingLegalMovesCount s := by
  unfold remainingLegalMovesCount
  rw [legalMovesList_congr s t hb he hset]

lemma edgesWF_congr (s t : St) (he : t.edges = s.edges) (hset : t.edgeSet = s.edgeSet)
    (h : EdgesWF s) : EdgesWF t := by
  unfold EdgesWF at h ⊢
  rw [he, hset]
  exact h

lemma noCross_congr (s t : St) (hb : t.board = s.board) (he : t.edges = s.edges)
    (h : NoCross s) : NoCross t := by
  unfold NoCross at h ⊢
  rw [hb, he]
  exact h

lemma inv3_of_fields (s t : St) (h : Inv3 s) (hb : t.board = s.board)
    (he : t.edges = s.edges) (hset : t.edgeSet = s.edgeSet) (hl : 0 ≤ t.linesLeft) :
    Inv3 t :=
  ⟨edgesWF_congr s t he hset h.1, hl, noCross_congr s t hb he h.2.2⟩

/-- Drawing a non-crossing candidate preserves the pairwise non-crossing
property of the edge list. -/
lemma noCross_addEdge (s : St) (a b : ℕ) (hnc : NoCross s)
    (hwc : wouldCrossExistingEdge s a b = false) : NoCross (addEdge s a b) := by
  simp only [addEdge]
  split
  · exact hnc
  · have hall := (wouldCross_eq_false_iff s a b).mp hwc
    intro e he f hf hsh
    simp only [List.mem_append, List.mem_singleton] at he hf
    -- the candidate against an old edge, in canonical (min, max) orientation
    have hnew : ∀ g ∈ s.edges,
        ¬(min a b = g.a ∨ min a b = g.b ∨ max a b = g.a ∨ max a b = g.b) →
        segmentsCross (dotPt s.board (min a b)) (dotPt s.board (max a b))
          (dotPt s.board g.a) (dotPt s.board g.b) = false := by
      intro g hg hshg
      have hcr : segmentsCross (dotPt s.board a) (dotPt s.board b)
          (dotPt s.board g.a) (dotPt s.board g.b) = false := by
        rcases hall g hg with hend | hcr
        · exfalso
          apply hshg
          rcases le_total a b with hab | hab
          · rw [min_eq_left hab, max_eq_right hab]
            tauto
          · rw [min_eq_right hab, max_eq_left hab]
            tauto
        · exact hcr
      rcases le_total a b with hab | hab
      · rw [min_eq_left hab, max_eq_right hab]
        exact hcr
      · rw [min_eq_right hab, max_eq_left hab]
        rw [segmentsCross_swap₁_eq]
        exact hcr
    rcases he with he | he <;> rcases hf with hf | hf
    · -- two old edges
      exact hnc e he f hf hsh
    · -- e old, f the new edge
      subst hf
      rw [segmentsCross_comm]
      apply hnew e he
      intro hc
      apply hsh
      tauto
    · -- e the new edge, f old
      subst he
      exact hnew f hf hsh
    · -- both the new edge: they share endpoints
      subst he
      subst hf
      exact absurd (Or.inl rfl) hsh

lemma noCross_removeEdgeKey (s : St) (k : EdgeKey) (h : NoCross s) :
    NoCross (removeEdgeKey s k) := by
  unfold removeEdgeKey
  split
  · intro e he f hf hsh
    simp only [List.mem_filter] at he hf
    exact h e he.1 f hf.1 hsh
  · exact h

lemma noCross_addMoves (s : St) (ms : List Move) (hnc : NoCross s) (hseq : SeqLegal s ms) :
    NoCross (addMoves s ms) := by
  induction ms generalizing s with
  | nil => exact hnc
  | cons m ms ih =>
    obtain ⟨hleg, _, hrest⟩ := hseq
    have hwc : wouldCrossExistingEdge s m.a m.b = false :=
      ((isLegalMove_iff s m.a m.b).mp hleg).2.2
    exact ih _ (noCross_addEdge s m.a m.b hnc hwc) hrest

lemma noCross_undoAll (s : St) (added : List EdgeKey) (h : NoCross s) :
    NoCross (undoAll s added) := by
  induction added with
  | nil => exact h
  | cons k ks ih =>
    show NoCross (removeEdgeKey (undoAll s ks) k)
    exact noCross_removeEdgeKey _ k ih

end Arena

namespace Arena

lemma inv_cosmetic (s t : St) (h : Inv s) (hb : t.board = s.board)
    (he : t.edges = s.edges) (hset : t.edgeSet = s.edgeSet)
    (hl : t.linesLeft = s.linesLeft) (hph : t.phase = s.phase) : Inv t := by
  refine ⟨inv3_of_fields s t h.1 hb he hset (by rw [hl]; exact h.1.2.1), ?_⟩
  intro hg
  rw [hph] at hg
  exact (remaining_congr s t hb he hset).trans (h.2 hg)

lemma inv_endGame (s : St) (h : Inv s) : Inv (endGameIfNoMoves s) := by
  unfold endGameIfNoMoves
  split
  · exact h
  · rename_i hno
    refine ⟨inv3_of_fields s _ h.1 rfl rfl rfl le_rfl, fun _ => ?_⟩
    have h0 : remainingLegalMovesCount s = 0 := by
      by_contra hne
      exact hno (by unfold hasAnyLegalMove; simpa using Nat.pos_of_ne_zero hne)
    exact (remaining_congr s _ rfl rfl rfl).trans h0

lemma inv_endTurnCore (s : St) (h : Inv s) : Inv (endTurnCore s) := by
  have h1 : Inv { s with rolled := none, linesLeft := 0, selected := none } :=
    ⟨inv3_of_fields s _ h.1 rfl rfl rfl le_rfl,
     fun hg => (remaining_congr s _ rfl rfl rfl).trans (h.2 hg)⟩
  simp only [endTurnCore]
  split
  · exact inv_endGame _ h1
  · rename_i hng
    have h2 := inv_endGame _ h1
    exact inv_cosmetic _ _ h2 rfl rfl rfl rfl rfl

lemma inv3_claim (s : St) (k : EdgeKey) (h : Inv3 s) : Inv3 (claimTrianglesForEdge s k) :=
  inv3_of_fields s _ h (claim_board s k) (claim_edges s k) (claim_edgeSet s k)
    (by rw [claim_linesLeft]; exact h.2.1)

lemma inv3_addEdge (s : St) (a b : ℕ) (h : Inv3 s)
    (hfresh : makeEdgeKey a b ∉ s.edgeSet)
    (hwc : wouldCrossExistingEdge s a b = false) : Inv3 (addEdge s a b) :=
  ⟨edgesWF_addEdge s a b hfresh h.1, by rw [addEdge_linesLeft]; exact h.2.1,
   noCross_addEdge s a b h.2.2 hwc⟩

/-- The closing game-over / end-of-turn checks after an accepted draw
preserve the invariant, given the invariant at the intermediate state and
a playing phase there. -/
lemma inv_acceptTail (t : St) (hI : Inv3 t) (hph : t.phase = .playing) :
    Inv (if ¬ (hasAnyLegalMove t = true) then endGameIfNoMoves t
         else if t.linesLeft = 0 then endTurnCore t else t) := by
  have hinv : Inv t := ⟨hI, fun hg => by rw [hph] at hg; exact absurd hg (by decide)⟩
  split
  · exact inv_endGame t hinv
  split
  · exact inv_endTurnCore t hinv
  · exact hinv

/-- The fold of `pickAIMoveWise` only accumulates moves from the scanned
list. -/
lemma pickFold_mem (score : Move → ℚ) (L : List Move) :
    ∀ (l : List Move), (∀ x ∈ l, x ∈ L) →
    ∀ (acc : Option ℚ × List Move), (∀ x ∈ acc.2, x ∈ L) →
      ∀ x ∈ (l.foldl (pickStep score) acc).2, x ∈ L := by
  intro l
  induction l with
  | nil =>
    intro _ acc hacc
    simpa using hacc
  | cons m ms ih =>
    intro hsub acc hacc
    rw [List.foldl_cons]
    apply ih (fun x hx => hsub x (List.mem_cons_of_mem m hx))
    obtain ⟨o, lst⟩ := acc
    rcases o with _ | bs
    · intro x hx
      simp only [pickStep, List.mem_singleton] at hx
      exact hx ▸ hsub m (List.mem_cons_self m ms)
    · intro x hx
      simp only [pickStep] at hx
      split at hx
      · simp only [List.mem_singleton] at hx
        exact hx ▸ hsub m (List.mem_cons_self m ms)
      · split at hx
        · rcases List.mem_append.mp hx with hx | hx
          · exact hacc x hx
          · simp only [List.mem_singleton] at hx
            exact hx ▸ hsub m (List.mem_cons_self m ms)
        · exact hacc x hx

/-- Whatever `pickAIMoveWise` returns is a legal move of the current
state. -/
lemma pickAIMoveWise_mem (s : St) (lr : ℤ) (cF jF : Move → ℚ) (rp : ℕ) (m : Move)
    (h : pickAIMoveWise s lr cF jF rp = some m) : m ∈ legalMovesList s := by
  simp only [pickAIMoveWise] at h
  by_cases h0 : (legalMovesList s).length = 0
  · rw [if_pos h0] at h
    exact absurd h (by simp)
  · rw [if_neg h0] at h
    split at h
    · have hm := Option.some.inj h
      rw [← hm]
      exact getD_mem_of_lt _ _ _ (Nat.pos_of_ne_zero h0)
    · rename_i hbl
      have hm := Option.some.inj h
      rw [← hm]
      have hlt : pickIdx ((legalMovesList s).foldl
          (pickStep fun mv => aiScore s lr (cF mv) (jF mv) mv) (none, [])).2.length rp <
          ((legalMovesList s).foldl
            (pickStep fun mv => aiScore s lr (cF mv) (jF mv) mv) (none, [])).2.length :=
        Nat.mod_lt _ (Nat.pos_of_ne_zero hbl)
      exact pickFold_mem _ (legalMovesList s) (legalMovesList s) (fun x hx => hx)
        (none, []) (by simp) _ (getD_mem_of_lt _ _ _ hlt)

end Arena

namespace Arena

/-- The accepted-draw tail shared by `onDotClick` and `aiPlayTurn`:
draw, decrement, claim, then the closing checks, as a single preserved
package.  (`sel` is the post-move selection, `some id` for the click and
the untouched old selection for the AI.) -/
lemma inv_acceptMove (s : St) (a b : ℕ) (h : Inv3 s) (hph : s.phase = .playing)
    (hfresh : makeEdgeKey a b ∉ s.edgeSet) (hwc : wouldCrossExistingEdge s a b = false)
    (sel : Option ℕ) :
    Inv (let s1 := addEdge s a b
         let s2 : St := { s1 with linesLeft := max 0 (s1.linesLeft - 1) }
         let s3 := claimTrianglesForEdge s2 (makeEdgeKey a b)
         let s4 : St := { s3 with selected := sel }
         if ¬ (hasAnyLegalMove s4 = true) then endGameIfNoMoves s4
         else if s4.linesLeft = 0 then endTurnCore s4 else s4) := by
  have h1 : Inv3 (addEdge s a b) := inv3_addEdge s a b h hfresh hwc
  have h2 : Inv3 ({ addEdge s a b with
      linesLeft := max 0 ((addEdge s a b).linesLeft - 1) }) :=
    inv3_of_fields _ _ h1 rfl rfl rfl (le_max_left 0 _)
  have h3 : Inv3 (claimTrianglesForEdge { addEdge s a b with
      linesLeft := max 0 ((addEdge s a b).linesLeft - 1) } (makeEdgeKey a b)) :=
    inv3_claim _ _ h2
  refine inv_acceptTail _ ?_ ?_
  · exact inv3_of_fields _ _ h3 rfl rfl rfl h3.2.1
  · show (claimTrianglesForEdge { addEdge s a b with
        linesLeft := max 0 ((addEdge s a b).linesLeft - 1) } (makeEdgeKey a b)).phase = .playing
    rw [claim_phase]
    show (addEdge s a b).phase = .playing
    rw [addEdge_phase, hph]

lemma inv_onDotClick (s : St) (id : ℕ) (h : Inv s) : Inv (onDotClick s id) := by
  unfold onDotClick
  split
  · exact h
  rename_i hplay'
  have hplay : s.phase = .playing := not_not.mp hplay'
  split
  · exact h
  split
  · exact inv_endGame s h
  split
  · exact inv_cosmetic s _ h rfl rfl rfl rfl rfl
  split
  · exact inv_cosmetic s _ h rfl rfl rfl rfl rfl
  rename_i a hsel
  split
  · exact inv_cosmetic s _ h rfl rfl rfl rfl rfl
  split
  · exact inv_cosmetic s _ h rfl rfl rfl rfl rfl
  split
  · exact inv_cosmetic s _ h rfl rfl rfl rfl rfl
  rename_i hhe'
  split
  · exact inv_cosmetic s _ h rfl rfl rfl rfl rfl
  rename_i hwc'
  have hhe : makeEdgeKey a id ∉ s.edgeSet := by
    have hf : hasEdge s a id = false := by
      rcases Bool.eq_false_or_eq_true (hasEdge s a id) with h0 | h0
      · exact absurd h0 hhe'
      · exact h0
    simpa [hasEdge] using hf
  have hwc : wouldCrossExistingEdge s a id = false := by
    rcases Bool.eq_false_or_eq_true (wouldCrossExistingEdge s a id) with h0 | h0
    · exact absurd h0 hwc'
    · exact h0
  exact inv_acceptMove s a id h.1 hplay hhe hwc (some id)

lemma inv_rollDice (s : St) (rs : List ℕ) (rd : ℕ) (h : Inv s) : Inv (rollDice s rs rd) := by
  simp only [rollDice]
  split
  · exact h
  rename_i hplay'
  have hplay : s.phase = .playing := not_not.mp hplay'
  split
  · exact h
  split
  · exact inv_endGame s h
  have hframe : (estimateMaxDrawableThisTurn s 6 90 rs).2 = s :=
    (estimate_spec s 6 90 rs h.1.1).1
  split
  · rw [hframe]
    exact inv_endGame _ (inv_cosmetic s _ h rfl rfl rfl rfl rfl)
  · rw [hframe]
    refine ⟨inv3_of_fields s _ h.1 rfl rfl rfl (Int.natCast_nonneg _), fun hg => ?_⟩
    exact absurd hg (by simp [hplay])

lemma inv_aiMoveStep (s : St) (cF jF : Move → ℚ) (rp : ℕ) (h : Inv s) :
    Inv (aiMoveStep s cF jF rp) := by
  simp only [aiMoveStep]
  split
  · exact h
  rename_i hplay'
  have hplay : s.phase = .playing := not_not.mp hplay'
  split
  · exact h
  split
  · exact h
  split
  · exact inv_endGame s h
  rename_i m hm
  have hmem : m ∈ legalMovesList s := pickAIMoveWise_mem s s.linesLeft cF jF rp m hm
  have hleg : isLegalMove s m.a m.b = true := (List.mem_filter.mp hmem).2
  have hkey : m.key = makeEdgeKey m.a m.b :=
    (mem_allPNE_spec _ m (List.mem_filter.mp hmem).1).2.1
  obtain ⟨hfresh, _, hwc⟩ := (isLegalMove_iff s m.a m.b).mp hleg
  have h1 : Inv3 (addEdge s m.a m.b) := inv3_addEdge s m.a m.b h.1 hfresh hwc
  have h2 : Inv3 ({ addEdge s m.a m.b with
      linesLeft := max 0 ((addEdge s m.a m.b).linesLeft - 1) }) :=
    inv3_of_fields _ _ h1 rfl rfl rfl (le_max_left 0 _)
  have h3 : Inv3 (claimTrianglesForEdge { addEdge s m.a m.b with
      linesLeft := max 0 ((addEdge s m.a m.b).linesLeft - 1) } m.key) :=
    inv3_claim _ _ h2
  have hinv3 : Inv (claimTrianglesForEdge { addEdge s m.a m.b with
      linesLeft := max 0 ((addEdge s m.a m.b).linesLeft - 1) } m.key) :=
    ⟨h3, fun hg => by simp [hplay] at hg⟩
  split
  · exact inv_endGame _ hinv3
  · exact hinv3

lemma inv_aiEndStep (s : St) (h : Inv s) : Inv (aiEndStep s) := by
  unfold aiEndStep
  split
  · exact inv_endTurnCore s h
  · exact h

lemma inv_step (s t : St) (hst : Step s t) (h : Inv s) : Inv t := by
  cases hst
  case click id => exact inv_onDotClick s id h
  case roll rs rd => exact inv_rollDice s rs rd h
  case aiMove cF jF rp => exact inv_aiMoveStep s cF jF rp h
  case aiEnd => exact inv_aiEndStep s h

lemma inv_reach (s t : St) (hr : Reach s t) (h : Inv s) : Inv t := by
  unfold Reach at hr
  induction hr with
  | refl => exact h
  | tail hab hbc ih => exact inv_step _ _ hbc ih

lemma inv_startGame (bd : Board) : Inv (startGame bd) := by
  unfold Inv Inv3 EdgesWF NoCross startGame
  refine ⟨⟨⟨by simp, by simp⟩, by simp, ?_⟩, by simp⟩
  intro e he
  simp at he

end Arena

namespace Arena

lemma ownerMono_refl (s : St) : OwnerMono s s :=
  fun _ _ t0 h1 h2 => ⟨t0, h1, h2, rfl, rfl, rfl, rfl⟩

lemma ownerMono_trans (s t u : St) (h1 : OwnerMono s t) (h2 : OwnerMono t u) :
    OwnerMono s u := by
  intro i p t0 hi ho
  obtain ⟨t1, hi1, ho1, ha1, hb1, hc1, he1⟩ := h1 i p t0 hi ho
  obtain ⟨t2, hi2, ho2, ha2, hb2, hc2, he2⟩ := h2 i p t1 hi1 ho1
  exact ⟨t2, hi2, ho2, ha2.trans ha1, hb2.trans hb1, hc2.trans hc1, he2.trans he1⟩

lemma ownerMono_of_triangles_eq (s t : St) (h : t.triangles = s.triangles) :
    OwnerMono s t := by
  intro i p t0 hi ho
  exact ⟨t0, by rw [h]; exact hi, ho, rfl, rfl, rfl, rfl⟩

/-- Claim resolution never rewrites a slot that already has an owner: the
claiming condition requires `owner == null`. -/
lemma ownerMono_claim (s : St) (k : EdgeKey) : OwnerMono s (claimTrianglesForEdge s k) := by
  intro i p t0 hi ho
  have hcond : (t0.edges.contains k && triClaimable s t0) = false := by
    unfold triClaimable
    rw [ho]
    simp
  refine ⟨t0, ?_, ho, rfl, rfl, rfl, rfl⟩
  have hnc : ¬((t0.edges.contains k && triClaimable s t0) = true) := by
    rw [hcond]
    simp
  show (s.triangles.map _)[i]? = some t0
  rw [List.getElem?_map, hi, Option.map_some', if_neg hnc]

/-- The estimator's speculative trials never touch the triangle list. -/
lemma trialLoop_triangles (depthCap : ℕ) :
    ∀ (fuel : ℕ) (s : St) (best count : ℕ) (added : List EdgeKey) (r : List ℕ),
      (trialLoop s depthCap best count added r fuel).st.triangles = s.triangles := by
  intro fuel
  induction fuel with
  | zero => intro s best count added r; rfl
  | succ fuel ih =>
    intro s best count added r
    simp only [trialLoop]
    split
    · rfl
    split
    · exact addEdge_triangles _ _ _
    · exact (ih _ _ _ _ _).trans (addEdge_triangles _ _ _)

lemma undoAll_triangles (added : List EdgeKey) :
    ∀ s : St, (undoAll s added).triangles = s.triangles := by
  induction added with
  | nil => intro s; rfl
  | cons k ks ih =>
    intro s
    show (removeEdgeKey (undoAll s ks) k).triangles = s.triangles
    rw [removeEdgeKey_triangles, ih]

lemma triesLoop_triangles (depthCap : ℕ) :
    ∀ (tries : ℕ) (s : St) (best : ℕ) (r : List ℕ),
      (triesLoop s depthCap best r tries).2.triangles = s.triangles := by
  intro tries
  induction tries with
  | zero => intro s best r; rfl
  | succ t ih =>
    intro s best r
    simp only [triesLoop]
    rw [ih, undoAll_triangles, trialLoop_triangles]

lemma estimate_triangles (s : St) (maxDepth tries : ℕ) (r : List ℕ) :
    (estimateMaxDrawableThisTurn s maxDepth tries r).2.triangles = s.triangles := by
  simp only [estimateMaxDrawableThisTurn]
  split
  · rfl
  · exact triesLoop_triangles _ _ _ _ _

lemma ownerMono_onDotClick (s : St) (id : ℕ) : OwnerMono s (onDotClick s id) := by
  unfold onDotClick
  split
  · exact ownerMono_refl s
  split
  · exact ownerMono_refl s
  split
  · exact ownerMono_of_triangles_eq _ _ (endGame_triangles s)
  split
  · exact ownerMono_of_triangles_eq _ _ rfl
  split
  · exact ownerMono_of_triangles_eq _ _ rfl
  rename_i a hsel
  split
  · exact ownerMono_of_triangles_eq _ _ rfl
  split
  · exact ownerMono_of_triangles_eq _ _ rfl
  split
  · exact ownerMono_of_triangles_eq _ _ rfl
  split
  · exact ownerMono_of_triangles_eq _ _ rfl
  refine ownerMono_trans _ _ _ (ownerMono_trans _ _ _
    (ownerMono_of_triangles_eq s ({ addEdge s a id with
        linesLeft := max 0 ((addEdge s a id).linesLeft - 1) }) (addEdge_triangles s a id))
    (ownerMono_claim _ (makeEdgeKey a id))) ?_
  dsimp only
  split
  · exact ownerMono_of_triangles_eq _ _ ((endGame_triangles _).trans rfl)
  split
  · exact ownerMono_of_triangles_eq _ _ ((endTurnCore_triangles _).trans rfl)
  · exact ownerMono_of_triangles_eq _ _ rfl

lemma ownerMono_rollDice (s : St) (rs : List ℕ) (rd : ℕ) :
    OwnerMono s (rollDice s rs rd) := by
  simp only [rollDice]
  split
  · exact ownerMono_refl s
  split
  · exact ownerMono_refl s
  split
  · exact ownerMono_of_triangles_eq _ _ (endGame_triangles s)
  split
  · refine ownerMono_of_triangles_eq _ _ ?_
    rw [endGame_triangles]
    show (estimateMaxDrawableThisTurn s 6 90 rs).2.triangles = s.triangles
    exact estimate_triangles s 6 90 rs
  · refine ownerMono_of_triangles_eq _ _ ?_
    show (estimateMaxDrawableThisTurn s 6 90 rs).2.triangles = s.triangles
    exact estimate_triangles s 6 90 rs

lemma ownerMono_aiMoveStep (s : St) (cF jF : Move → ℚ) (rp : ℕ) :
    OwnerMono s (aiMoveStep s cF jF rp) := by
  unfold aiMoveStep
  split
  · exact ownerMono_refl s
  split
  · exact ownerMono_refl s
  split
  · exact ownerMono_refl s
  split
  · exact ownerMono_of_triangles_eq _ _ (endGame_triangles s)
  rename_i m hm
  refine ownerMono_trans _ _ _ (ownerMono_trans _ _ _
    (ownerMono_of_triangles_eq s ({ addEdge s m.a m.b with
        linesLeft := max 0 ((addEdge s m.a m.b).linesLeft - 1) }) (addEdge_triangles s m.a m.b))
    (ownerMono_claim _ m.key)) ?_
  dsimp only
  split
  · exact ownerMono_of_triangles_eq _ _ ((endGame_triangles _).trans rfl)
  · exact ownerMono_of_triangles_eq _ _ rfl

lemma ownerMono_aiEndStep (s : St) : OwnerMono s (aiEndStep s) := by
  unfold aiEndStep
  split
  · exact ownerMono_of_triangles_eq _ _ (endTurnCore_triangles s)
  · exact ownerMono_refl s

lemma ownerMono_step (s t : St) (hst : Step s t) : OwnerMono s t := by
  cases hst
  case click id => exact ownerMono_onDotClick s id
  case roll rs rd => exact ownerMono_rollDice s rs rd
  case aiMove cF jF rp => exact ownerMono_aiMoveStep s cF jF rp
  case aiEnd => exact ownerMono_aiEndStep s

end Arena

namespace Arena

lemma endGame_phase_of_none (s : St) (h0 : remainingLegalMovesCount s = 0) :
    (endGameIfNoMoves s).phase = .gameover := by
  unfold endGameIfNoMoves
  rw [if_neg]
  simp [hasAnyLegalMove, h0]

/-- C3: dice and budget range invariant.  In every state reachable within
a match the remaining budget `linesLeft` is non-negative, and whenever a
roll is granted (playing phase, no unfinished budget, a legal move left)
the dice value `n` satisfies `1 ≤ n ≤ cap` for the feasibility cap
`cap = min 6 estimate`, which is itself at most 6; the granted budget
equals the dice value. -/
theorem dice_budget_range (bd : Board) (s : St) (h : Reach (startGame bd) s) :
    0 ≤ s.linesLeft ∧
    (∀ (rs : List ℕ) (rd : ℕ), s.phase = .playing →
      ¬(s.rolled ≠ none ∧ 0 < s.linesLeft) → 0 < remainingLegalMovesCount s →
      ∃ n cap : ℕ, cap = min 6 (estimateMaxDrawableThisTurn s 6 90 rs).1 ∧
        (rollDice s rs rd).rolled = some n ∧ (rollDice s rs rd).linesLeft = (n : ℤ) ∧
        1 ≤ n ∧ n ≤ cap ∧ cap ≤ 6) := by
  have hInv := inv_reach _ _ h (inv_startGame bd)
  refine ⟨hInv.1.2.1, ?_⟩
  intro rs rd hph hidle hleg
  have hne : (legalMovesList s).length ≠ 0 := by
    unfold remainingLegalMovesCount at hleg
    omega
  obtain ⟨hframe, hcd, _⟩ := estimate_spec s 6 90 rs hInv.1.1
  obtain ⟨hfe1, _⟩ := hcd hne
  have hred : rollDice s rs rd = { (estimateMaxDrawableThisTurn s 6 90 rs).2 with
      rolled := some (pickIdx (min 6 (estimateMaxDrawableThisTurn s 6 90 rs).1) rd + 1),
      linesLeft := ((pickIdx (min 6 (estimateMaxDrawableThisTurn s 6 90 rs).1) rd + 1 : ℕ) : ℤ),
      selected := none } := by
    unfold rollDice
    rw [if_neg (by simp [hph]), if_neg hidle,
      if_neg (by unfold remainingLegalMovesCount at hleg ⊢; omega)]
    dsimp only
    rw [if_neg (by omega)]
  have hmod : pickIdx (min 6 (estimateMaxDrawableThisTurn s 6 90 rs).1) rd <
      min 6 (estimateMaxDrawableThisTurn s 6 90 rs).1 :=
    Nat.mod_lt _ (by omega)
  refine ⟨pickIdx (min 6 (estimateMaxDrawableThisTurn s 6 90 rs).1) rd + 1,
    min 6 (estimateMaxDrawableThisTurn s 6 90 rs).1, rfl, ?_, ?_, ?_, ?_, ?_⟩
  · rw [hred]
  · rw [hred]
  · omega
  · omega
  · omega

/-- Witness for `dice_budget_range`: the freshly started 3-dot match. -/
theorem dice_budget_range_witness :
    0 ≤ (startGame triBoard).linesLeft ∧
    (∀ (rs : List ℕ) (rd : ℕ), (startGame triBoard).phase = .playing →
      ¬((startGame triBoard).rolled ≠ none ∧ 0 < (startGame triBoard).linesLeft) →
      0 < remainingLegalMovesCount (startGame triBoard) →
      ∃ n cap : ℕ,
        cap = min 6 (estimateMaxDrawableThisTurn (startGame triBoard) 6 90 rs).1 ∧
        (rollDice (startGame triBoard) rs rd).rolled = some n ∧
        (rollDice (startGame triBoard) rs rd).linesLeft = (n : ℤ) ∧
        1 ≤ n ∧ n ≤ cap ∧ cap ≤ 6) :=
  dice_budget_range triBoard (startGame triBoard) Relation.ReflTransGen.refl

/-- C4: non-crossing invariant.  Every state reachable within a match has
pairwise non-crossing edges, and the property is closed under every way an
edge enters or leaves the edge state: an accepted legal draw, a whole
speculative trial sequence of the feasibility estimator, and the
estimator's undo sweep. -/
theorem noncrossing_invariant (bd : Board) (s : St) (h : Reach (startGame bd) s) :
    NoCross s ∧
    (∀ a b : ℕ, isLegalMove s a b = true → NoCross (addEdge s a b)) ∧
    (∀ ms : List Move, SeqLegal s ms → NoCross (addMoves s ms)) ∧
    (∀ added : List EdgeKey, NoCross (undoAll s added)) := by
  have hInv := inv_reach _ _ h (inv_startGame bd)
  have hnc : NoCross s := hInv.1.2.2
  refine ⟨hnc, ?_, ?_, ?_⟩
  · intro a b hleg
    exact noCross_addEdge s a b hnc ((isLegalMove_iff s a b).mp hleg).2.2
  · intro ms hseq
    exact noCross_addMoves s ms hnc hseq
  · intro added
    exact noCross_undoAll s added hnc

/-- Witness for `noncrossing_invariant`: the freshly started 3-dot match. -/
theorem noncrossing_invariant_witness :
    NoCross (startGame triBoard) ∧
    (∀ a b : ℕ, isLegalMove (startGame triBoard) a b = true →
      NoCross (addEdge (startGame triBoard) a b)) ∧
    (∀ ms : List Move, SeqLegal (startGame triBoard) ms →
      NoCross (addMoves (startGame triBoard) ms)) ∧
    (∀ added : List EdgeKey, NoCross (undoAll (startGame triBoard) added)) :=
  noncrossing_invariant triBoard (startGame triBoard) Relation.ReflTransGen.refl

/-- C5: triangle-owner monotonicity.  Within a single match (the reset
operations are not match transitions), once a triangle's owner is
non-null, every later state shows the same triangle at the same position
with the same owner: no operation changes it to a different player or back
to null. -/
theorem triangle_owner_monotone (s t : St) (h : Reach s t) : OwnerMono s t := by
  unfold Reach at h
  induction h with
  | refl => exact ownerMono_refl s
  | tail hab hbc ih => exact ownerMono_trans _ _ _ ih (ownerMono_step _ _ hbc)

/-- Witness for `triangle_owner_monotone`: the claimed triangle of
`ownedState` survives the AI's closing `endTurn`. -/
theorem triangle_owner_monotone_witness :
    OwnerMono ownedState (aiEndStep ownedState) :=
  triangle_owner_monotone ownedState (aiEndStep ownedState)
    (Relation.ReflTransGen.single (Step.aiEnd ownedState))

/-- C7: game-over characterization.  In every reachable state, the
gameover phase implies that no legal move remains; conversely, in a
playing state with no legal move left, every next transition attempt — a
roll request, a human click, an AI move with budget in hand, or the
end-of-turn pass — lands in the gameover phase, regardless of whose turn
it is or the remaining budget. -/
theorem gameover_characterization (bd : Board) (s : St) (h : Reach (startGame bd) s) :
    (s.phase = .gameover → remainingLegalMovesCount s = 0) ∧
    (s.phase = .playing → remainingLegalMovesCount s = 0 →
      (∀ (rs : List ℕ) (rd : ℕ), ¬(s.rolled ≠ none ∧ 0 < s.linesLeft) →
        (rollDice s rs rd).phase = .gameover) ∧
      (∀ id : ℕ, (currentPlayer s).isAI = false → (onDotClick s id).phase = .gameover) ∧
      (∀ (cF jF : Move → ℚ) (rp : ℕ), (currentPlayer s).isAI = true →
        s.rolled ≠ none → 0 < s.linesLeft →
        (aiMoveStep s cF jF rp).phase = .gameover) ∧
      (endTurnCore s).phase = .gameover) := by
  have hInv := inv_reach _ _ h (inv_startGame bd)
  refine ⟨hInv.2, ?_⟩
  intro hph h0
  have hnoany : ¬(hasAnyLegalMove s = true) := by
    simp [hasAnyLegalMove, h0]
  refine ⟨?_, ?_, ?_, ?_⟩
  · intro rs rd hidle
    unfold rollDice
    rw [if_neg (by simp [hph]), if_neg hidle, if_pos (by omega)]
    exact endGame_phase_of_none s h0
  · intro id hai
    unfold onDotClick
    rw [if_neg (by simp [hph]), if_neg (by simp [hai]), if_pos hnoany]
    exact endGame_phase_of_none s h0
  · intro cF jF rp hai hrolled hlines
    have hpick : pickAIMoveWise s s.linesLeft cF jF rp = none := by
      have h0' : (legalMovesList s).length = 0 := h0
      unfold pickAIMoveWise
      dsimp only
      rw [if_pos h0']
    unfold aiMoveStep
    rw [if_neg (by simp [hph]), if_neg (by simp [hai]),
      if_neg (by rintro (hc | hc); exacts [hrolled hc, by omega]), hpick]
    exact endGame_phase_of_none s h0
  · have h1 : remainingLegalMovesCount
        { s with rolled := none, linesLeft := 0, selected := none } = 0 :=
      (remaining_congr s _ rfl rfl rfl).trans h0
    have h2 := endGame_phase_of_none _ h1
    simp only [endTurnCore]
    rw [if_pos h2]
    exact h2

/-- Witness for `gameover_characterization`: on the one-isolated-dot board
the initial state is reachable, playing, and moveless, and a roll request,
a human click and the turn pass each land in the gameover phase. -/
theorem gameover_characterization_witness :
    (startGame lonelyBoard).phase = .playing ∧
    remainingLegalMovesCount (startGame lonelyBoard) = 0 ∧
    (rollDice (startGame lonelyBoard) [] 0).phase = .gameover ∧
    (onDotClick (startGame lonelyBoard) 0).phase = .gameover ∧
    (endTurnCore (startGame lonelyBoard)).phase = .gameover := by
  obtain ⟨-, h2⟩ := gameover_characterization lonelyBoard (startGame lonelyBoard)
    Relation.ReflTransGen.refl
  obtain ⟨hroll, hclick, -, hend⟩ := h2 (by decide) (by decide)
  exact ⟨by decide, by decide, hroll [] 0 (by decide), hclick 0 (by decide), hend⟩

end Arena
